import Mathlib

/-!
# CiteWise hybrid retrieval and indexing engine — verification development

A shallow embedding of the CiteWise core (`src/retrieval/hybrid_search.py`,
`src/ingest/index.py`, `src/ingest/chunker.py`) together with proofs about
the rank-fusion pipeline, the BM25 keyword scorer, the vector-store sync
engine, chunk-id generation and source deletion.

Modelling conventions:
* Python floats are modelled as exact rationals (`ℚ`);
* external collaborators (the embedding backend, the BM25 tokenizer,
  `math.log`, `uuid.uuid4`, the FlashRank backend, the load/chunk pipeline)
  are parameters of the definitions, so every theorem quantifies over them;
* the Milvus store is modelled as an in-memory list of rows per collection,
  with upsert-by-primary-key and filter-delete semantics; a single upsert
  or delete call is atomic (the store applies it fully or raises before
  touching anything), matching the contract the engine relies on; whether
  a given upsert call raises is an external oracle (`writeOk` per call in
  `indexChunks`, the per-batch `upsertOk` in `index_file` and the sync
  loop); whether the source query of `_get_indexed_sources` raises is the
  `queryOk` flag (on failure the code returns the empty set), and its
  `limit=16384` row-scan cap is `QUERY_LIMIT` — the scan sees the first
  `QUERY_LIMIT` matching rows in storage order, which is exact for stores
  below the cap and an under-approximation above it, as in the program;
* Python's stable sort (`list.sort` / `sorted`) is modelled by
  `List.insertionSort`, which is a stable sort;
* Python string slicing `s[:n]` operates on code points, modelled by
  `List.take` on `String.data`.
-/

namespace CiteWise

/-! ## String helpers -/

/-- Python code-point slicing `s[:n]`. -/
def strTake (s : String) (n : ℕ) : String :=
  String.mk (s.data.take n)

/-- Code-point–wise lexicographic "less than" on char lists, the order
Python uses to compare strings (`sorted` on filenames). -/
def charsLt : List Char → List Char → Bool
  | [], [] => false
  | [], _ :: _ => true
  | _ :: _, [] => false
  | a :: as, b :: bs => if a = b then charsLt as bs else decide (a.val < b.val)

/-- `a ≤ b` on strings by code points, as used by Python's `sorted`. -/
def nameLe (a b : String) : Prop := charsLt b.data a.data = false

instance : DecidableRel nameLe := fun a b => by
  unfold nameLe; infer_instance

/-- Python `sorted` on a list of names (stable, ascending). -/
def nameSort (l : List String) : List String :=
  l.insertionSort nameLe

/-! ## BM25 keyword scorer (`_BM25Scorer` in hybrid_search.py)

The tokenizer `_tokenise` and `math.log` are external collaborators and
appear as parameters `tok` and `lg`. -/

/-- `K1 = 1.5` from `_BM25Scorer`. -/
def bm25K1 : ℚ := 3 / 2

/-- `B = 0.75` from `_BM25Scorer`. -/
def bm25B : ℚ := 3 / 4

/-- Document frequency of a term over the tokenized candidate set:
the number of candidate documents containing the term (the code increments
`self._df[term]` once per document via `set(tokens)`). -/
def docFreq (tokenised : List (List String)) (term : String) : ℕ :=
  (tokenised.filter (fun d => term ∈ d)).length

/-- Average document length over the candidate set (`self._avgdl`);
`1` for an empty corpus, exactly as in `__init__`. -/
def avgdl (tokenised : List (List String)) : ℚ :=
  if tokenised.length = 0 then 1
  else ((tokenised.map List.length).sum : ℚ) / (tokenised.length : ℚ)

/-- Contribution of one query term to the BM25 score of one document
(the body of the `for term in query_terms` loop in `score`): terms with
candidate-set document frequency `0` are skipped, i.e. contribute `0`. -/
def bm25TermScore (lg : ℚ → ℚ) (tokenised : List (List String))
    (docTokens : List String) (term : String) : ℚ :=
  let tf : ℚ := docTokens.count term
  let df : ℕ := docFreq tokenised term
  if df = 0 then 0
  else
    let n : ℚ := tokenised.length
    let dl : ℚ := docTokens.length
    lg ((n - df + 1 / 2) / (df + 1 / 2) + 1) * (tf * (bm25K1 + 1)) /
      (tf + bm25K1 * (1 - bm25B + bm25B * dl / avgdl tokenised))

/-- `_BM25Scorer(corpus).score(query, i)`. -/
def bm25Score (lg : ℚ → ℚ) (tok : String → List String)
    (corpus : List String) (query : String) (i : ℕ) : ℚ :=
  let tokenised := corpus.map tok
  ((tok query).map (bm25TermScore lg tokenised (tokenised.getD i []))).sum

/-- `max(keyword_scores) if keyword_scores else 1.0`. -/
def maxKeyword (scores : List ℚ) : ℚ :=
  match scores with
  | [] => 1
  | s :: rest => rest.foldl max s

/-- `norm_kw = [s / max_kw if max_kw > 0 else 0.0 for s in keyword_scores]`. -/
def normaliseKw (scores : List ℚ) : List ℚ :=
  scores.map (fun s => if 0 < maxKeyword scores then s / maxKeyword scores else 0)

/-! ## Rank-fusion combine stage (Stage C of `hybrid_search`) -/

/-- The combined score the loop assigns to the hit at 0-indexed semantic
rank `i` out of `n`: `0.6 * ((n - i) / n) + 0.4 * norm_kw[i]`. -/
def combinedScore (n i : ℕ) (kw : ℚ) : ℚ :=
  6 / 10 * (((n : ℚ) - (i : ℚ)) / (n : ℚ)) + 4 / 10 * kw

/-- The `combined` list built by `for i, doc in enumerate(semantic_hits)`. -/
def combinePairs {α : Type _} (hits : List α) (normKw : List ℚ) : List (ℚ × α) :=
  ((List.range hits.length).zip hits).map
    (fun p => (combinedScore hits.length p.1 (normKw.getD p.1 0), p.2))

/-- The descending-by-combined-score order used by
`combined.sort(key=lambda x: x[0], reverse=True)`. -/
def combinedGe {α : Type _} (a b : ℚ × α) : Prop := b.1 ≤ a.1

instance {α : Type _} : DecidableRel (combinedGe (α := α)) := fun a b => by
  unfold combinedGe; infer_instance

instance {α : Type _} : IsTotal (ℚ × α) combinedGe :=
  ⟨fun a b => (le_total b.1 a.1).imp id id⟩

instance {α : Type _} : IsTrans (ℚ × α) combinedGe :=
  ⟨fun _ _ _ h h' => le_trans h' h⟩

/-- `combined.sort(key=lambda x: x[0], reverse=True)` — Python's stable
descending sort, modelled by stable insertion sort on `combinedGe`. -/
def combineSort {α : Type _} (l : List (ℚ × α)) : List (ℚ × α) :=
  l.insertionSort combinedGe

/-- `merged_docs` of Stage C: sort the scored pairs, then drop the scores. -/
def mergedDocs {α : Type _} (hits : List α) (normKw : List ℚ) : List α :=
  (combineSort (combinePairs hits normKw)).map Prod.snd

/-! ## Deduplication (Stage 4 of `hybrid_search`) -/

/-- A retrieval-side document: `page_content` plus the `chunk_id` metadata
entry, which may be absent. -/
structure HDoc where
  text : String
  chunk_id : Option String
  deriving DecidableEq

/-- `doc.metadata.get("chunk_id", doc.page_content[:32])`. -/
def dedupKey (d : HDoc) : String :=
  match d.chunk_id with
  | some cid => cid
  | none => strTake d.text 32

/-- The dedup loop with its `seen_ids` accumulator. -/
def dedupLoop : List HDoc → List String → List HDoc
  | [], _ => []
  | d :: rest, seen =>
      if dedupKey d ∈ seen then dedupLoop rest seen
      else d :: dedupLoop rest (dedupKey d :: seen)

/-- Stage 4: deduplicate `merged_docs` by chunk id, first occurrence wins. -/
def dedupDocs (l : List HDoc) : List HDoc :=
  dedupLoop l []

/-! ## FlashRank reranking (`_flashrank_rerank`) -/

/-- `RERANK_TOP_K` (default configuration value `"5"`). -/
def RERANK_TOP_K : ℕ := 5

/-- The external FlashRank backend as seen by `_flashrank_rerank`:
the import can fail, the ranker can raise, or it returns a list of
`{"id": i, "score": s}` results. -/
inductive RerankBackend where
  | unavailable
  | failure (msg : String)
  | ok (results : List (ℕ × ℚ))

/-- Descending order on rerank results (`key=lambda r: r["score"], reverse=True`). -/
def rerankGe (a b : ℕ × ℚ) : Prop := b.2 ≤ a.2

instance : DecidableRel rerankGe := fun a b => by
  unfold rerankGe; infer_instance

/-- `_flashrank_rerank(query, candidates, top_k)`.  On import failure or
any ranker error (including an out-of-range `id` in the results, which
raises inside the `try`) it falls back to `candidates[:top_k]`. -/
def flashrank_rerank (backend : RerankBackend) (candidates : List HDoc)
    (top_k : ℕ) : List HDoc :=
  match backend with
  | .unavailable => candidates.take top_k
  | .failure _ => candidates.take top_k
  | .ok results =>
      if results.all (fun r => r.1 < candidates.length) then
        ((results.insertionSort rerankGe).take top_k).filterMap
          (fun r => candidates.get? r.1)
      else candidates.take top_k

/-! ## Chunk ids (`chunker._generate_chunk_id`)

`hashlib.md5` is an external collaborator; it appears as the parameter
`hash`, a function from the chunk text to its hex digest. -/

/-- `f"{source}__p{page}__c{chunk_index}__{content_hash}"` with
`content_hash = md5(text)[:8]`. -/
def generate_chunk_id (hash : String → String) (source : String) (page : ℤ)
    (chunkIndex : ℕ) (text : String) : String :=
  source ++ "__p" ++ toString page ++ "__c" ++ toString chunkIndex ++ "__" ++
    strTake (hash text) 8

/-! ## Vector store model (`ingest/index.py`) -/

/-- A chunk as handed to `_index_chunks`: `page_content` plus metadata. -/
structure Chunk where
  chunk_id : Option String
  text : String
  source : String
  page : ℤ
  is_definition : Bool
  deriving DecidableEq

/-- One stored Milvus row (the dict built in `_index_chunks`). -/
structure Row where
  id : String
  vector : List ℚ
  text : String
  source : String
  page : ℤ
  is_definition : Bool
  chunk_id : String
  deriving DecidableEq

/-- The two collections (`COLLECTION_NAME` and `DEFS_COLLECTION_NAME`). -/
structure StoreState where
  general : List Row
  defs : List Row
  deriving DecidableEq

/-- The row built for one chunk: primary key
`(meta.get("chunk_id") or str(uuid.uuid4()))[:256]`, text truncated to
65000, source to 512.  `uuid` is the external fresh-id generator, indexed
by the chunk's position in the batch. -/
def rowOfChunk (uuid : ℕ → String) (k : ℕ) (c : Chunk) (v : List ℚ) : Row :=
  let pk := strTake
    (match c.chunk_id with
     | some cid => if cid = "" then uuid k else cid
     | none => uuid k) 256
  ⟨pk, v, strTake c.text 65000, strTake c.source 512, c.page, c.is_definition, pk⟩

/-- The `rows` list built in `_index_chunks` (`zip` truncates to the
shorter of chunks and vectors, as in Python). -/
def buildRows (uuid : ℕ → String) (chunks : List Chunk)
    (vectors : List (List ℚ)) : List Row :=
  ((chunks.zip vectors).enum).map (fun p => rowOfChunk uuid p.1 p.2.1 p.2.2)

/-- Milvus `upsert`: rows keyed by `id`; rows in the collection whose id
collides with a batch id are overwritten by the batch row. -/
def upsertRows (col : List Row) (rows : List Row) : List Row :=
  col.filter (fun r => !(rows.any (fun nr => nr.id = r.id))) ++ rows

/-- `_index_chunks(chunks, collection_name)` acting on one collection.
`embed` is the external embedding backend (`None` = raised); `writeOk`
models whether the store's `upsert` call succeeds or raises.  Returns the
count reported to the caller and the collection afterwards. -/
def indexChunks (embed : List String → Option (List (List ℚ)))
    (uuid : ℕ → String) (writeOk : Bool) (chunks : List Chunk)
    (col : List Row) : ℕ × List Row :=
  if chunks.isEmpty then (0, col)
  else
    match embed (chunks.map (·.text)) with
    | none => (0, col)
    | some vectors =>
        let rows := buildRows uuid chunks vectors
        if writeOk then (rows.length, upsertRows col rows) else (0, col)

/-- What `load_document` + `chunk_documents` produce for one file:
either an exception escapes (caught by `index_file`), or no content was
extracted (`docs` empty), or the two chunk lists. -/
inductive PipelineOutcome where
  | raises
  | noContent
  | chunks (general definitions : List Chunk)
  deriving DecidableEq

/-- One supported file on disk: its basename and what the external
load/chunk pipeline deterministically produces for it. -/
structure DiskFile where
  name : String
  pipeline : PipelineOutcome
  deriving DecidableEq

/-- The summary dict returned by `index_file`. -/
structure IndexSummary where
  source : String
  general_chunks : ℕ
  definition_chunks : ℕ
  status : String
  deriving DecidableEq

/-- `index_file(file_path)`: full ingestion of one file into both
collections.  `upsertOk` is the per-call success of the store's `upsert`,
keyed by the batch being written (one call per collection).  Embedding or
upsert failures inside `_index_chunks` yield a zero count but still
`status = "ok"`, exactly as in the code. -/
def index_file (embed : List String → Option (List (List ℚ)))
    (uuid : ℕ → String) (upsertOk : List Chunk → Bool) (f : DiskFile)
    (st : StoreState) : IndexSummary × StoreState :=
  match f.pipeline with
  | .raises => (⟨f.name, 0, 0, "error"⟩, st)
  | .noContent => (⟨f.name, 0, 0, "empty"⟩, st)
  | .chunks g d =>
      let rg := indexChunks embed uuid (upsertOk g) g st.general
      let rd := indexChunks embed uuid (upsertOk d) d st.defs
      (⟨f.name, rg.1, rd.1, "ok"⟩, ⟨rg.2, rd.2⟩)

/-- The `limit=16384` row-scan cap of `_get_indexed_sources`. -/
def QUERY_LIMIT : ℕ := 16384

/-- `_get_indexed_sources()`: the distinct non-empty `source` values among
the first `QUERY_LIMIT` matching rows of the general collection (the
code's `limit=16384` query cap — exact below the cap, an
under-approximation above it).  `queryOk = false` models the query
raising, where the code's `except` returns the empty set. -/
def indexedSources (queryOk : Bool) (st : StoreState) : List String :=
  if queryOk then
    (((st.general.filter (fun r => r.source ≠ "")).take QUERY_LIMIT).map
      (·.source)).dedup
  else []

/-! ## Source deletion and the filter expression (`delete_file_vectors`) -/

/-- `source_filename.replace('"', '\\"')`. -/
def escapeQuotes (s : String) : String :=
  String.mk (s.data.flatMap (fun c => if c = '"' then ['\\', '"'] else [c]))

/-- `expr = f'source == "{safe}"'`. -/
def filterExprForSource (name : String) : String :=
  "source == \"" ++ escapeQuotes name ++ "\""

/-- The Milvus filter-language string-literal reader (external grammar,
standard backslash escaping): consumes characters after the opening quote
until an unescaped closing quote, which must end the expression; returns
`none` on a malformed literal (Milvus raises a parse error). -/
def parseQuotedBody : List Char → Option (List Char)
  | [] => none
  | c :: rest =>
      if c = '\\' then
        match rest with
        | [] => none
        | c2 :: rest2 => (parseQuotedBody rest2).map (fun t => c2 :: t)
      else if c = '"' then
        if rest.isEmpty then some [] else none
      else (parseQuotedBody rest).map (fun t => c :: t)

/-- Interpret a filter expression of the shape `source == "<literal>"`:
the equality filter semantics of the external store.  `none` models a
parse error (the `client.delete` call raises). -/
def parseSourceEqFilter (expr : String) : Option String :=
  if expr.data.take 11 = "source == \"".data then
    (parseQuotedBody (expr.data.drop 11)).map String.mk
  else none

/-- `client.delete(collection_name=col, filter=expr)`: removes the rows
matched by the filter; a parse error raises, which
`delete_file_vectors` catches, leaving the collection unchanged. -/
def deleteByFilter (expr : String) (col : List Row) : List Row :=
  match parseSourceEqFilter expr with
  | none => col
  | some lit => col.filter (fun r => r.source ≠ lit)

/-- `delete_file_vectors(source_filename)`: build the escaped equality
filter once and apply it to both collections. -/
def delete_file_vectors (name : String) (st : StoreState) : StoreState :=
  let expr := filterExprForSource name
  ⟨deleteByFilter expr st.general, deleteByFilter expr st.defs⟩

/-! ## Sync (`sync_folder`) -/

/-- The report dict `{added, deleted, errors, total_on_disk}`. -/
structure SyncReport where
  added : List String
  deleted : List String
  errors : List String
  total_on_disk : ℕ
  deriving DecidableEq

/-- The file the dict comprehension `{p.name: p for p in ...}` associates
with a basename: the last file with that name in traversal order. -/
def diskFileFor (disk : List DiskFile) (name : String) : Option DiskFile :=
  (disk.filter (fun f => f.name = name)).getLast?

/-- Python set difference `xs - ys`, as a list. -/
def listDiff (xs ys : List String) : List String :=
  xs.filter (fun x => !(ys.contains x))

/-- The `for name in sorted(disk_names - indexed_names)` loop: index each
file and record it in `added` on `status == "ok"`, otherwise in `errors`. -/
def syncAdds (embed : List String → Option (List (List ℚ)))
    (uuid : ℕ → String) (upsertOk : List Chunk → Bool) (disk : List DiskFile) :
    List String → StoreState → List String × List String × StoreState
  | [], st => ([], [], st)
  | name :: rest, st =>
      match diskFileFor disk name with
      | none => syncAdds embed uuid upsertOk disk rest st
      | some f =>
          let r := index_file embed uuid upsertOk f st
          let rec' := syncAdds embed uuid upsertOk disk rest r.2
          if r.1.status = "ok" then (name :: rec'.1, rec'.2.1, rec'.2.2)
          else (rec'.1, name :: rec'.2.1, rec'.2.2)

/-- The `for name in sorted(indexed_names - disk_names)` loop:
`delete_file_vectors` never lets an exception escape, so every name is
recorded in `deleted`. -/
def syncDeletes : List String → StoreState → List String × StoreState
  | [], st => ([], st)
  | name :: rest, st =>
      let st' := delete_file_vectors name st
      let r := syncDeletes rest st'
      (name :: r.1, r.2)

/-- `sync_folder(data_dir)`: diff the deduplicated on-disk basenames
against the indexed sources, index the missing ones (sorted), delete the
removed ones (sorted), and report. -/
def sync_folder (embed : List String → Option (List (List ℚ)))
    (uuid : ℕ → String) (upsertOk : List Chunk → Bool) (queryOk : Bool)
    (disk : List DiskFile) (st : StoreState) : SyncReport × StoreState :=
  let diskNames := (disk.map (·.name)).dedup
  let indexed := indexedSources queryOk st
  let toAdd := nameSort (listDiff diskNames indexed)
  let toDel := nameSort (listDiff indexed diskNames)
  let ra := syncAdds embed uuid upsertOk disk toAdd st
  let rd := syncDeletes toDel ra.2.2
  (⟨ra.1, rd.1, ra.2.1, diskNames.length⟩, rd.2)

/-! ## Hypothesis predicates for the sync theorems

These record the guarantees the real ingest pipeline provides (the
chunker tags every chunk with `source = file basename` and a non-empty
deterministic `chunk_id` that starts with the source name, and the
embedding backend returns one vector per text) as explicit hypotheses. -/

/-- A file which the pipeline ingests successfully: it chunks without
error into a non-empty general list, its texts embed, its general batch
upserts successfully, every general chunk carries the file's basename as
`source` (short enough to survive the 512-character truncation) and a
non-empty `chunk_id` from which `tag` recovers the owning source (in the
real chunker the id begins with the source name, so ids of distinct files
never collide). -/
def cleanFile (embed : List String → Option (List (List ℚ)))
    (upsertOk : List Chunk → Bool) (tag : String → String)
    (f : DiskFile) : Prop :=
  f.name ≠ "" ∧ f.name.data.length ≤ 512 ∧
  ∃ g d, f.pipeline = .chunks g d ∧ g ≠ [] ∧ upsertOk g = true ∧
    (∃ vs, embed (g.map (·.text)) = some vs ∧ vs.length = g.length) ∧
    ∀ c ∈ g, c.source = f.name ∧ c.source.data.length ≤ 512 ∧
      ∃ cid, c.chunk_id = some cid ∧ cid ≠ "" ∧ tag (strTake cid 256) = f.name

/-- Every stored general row's id identifies its (non-empty) source via
`tag` — the invariant the deterministic chunk-id format provides. -/
def taggedStore (tag : String → String) (st : StoreState) : Prop :=
  ∀ r ∈ st.general, r.source ≠ "" → tag r.id = r.source

/-! # Theorems -/

/-! ## Shared list/order helpers -/

/-- Two entries at positions `i < j` of a list form a sublist `[x, y]`. -/
theorem pair_sublist_of_getElem? {α : Type _} {l : List α} {i j : ℕ} {x y : α}
    (hij : i < j) (hi : l[i]? = some x) (hj : l[j]? = some y) :
    List.Sublist [x, y] l := by
  induction l generalizing i j with
  | nil => simp at hi
  | cons a t ih =>
      cases i with
      | zero =>
          have hx : a = x := by simpa using hi
          subst hx
          cases j with
          | zero => omega
          | succ j2 =>
              have hy : y ∈ t := List.getElem?_mem (by simpa using hj)
              exact (List.singleton_sublist.mpr hy).cons₂ a
      | succ i2 =>
          cases j with
          | zero => omega
          | succ j2 =>
              exact (@ih i2 j2 (by omega) (by simpa using hi) (by simpa using hj)).cons a

/-- A list whose entries at two distinct positions coincide is not `Nodup`. -/
theorem not_nodup_of_getElem?_eq {α : Type _} {l : List α} {i j : ℕ} {x : α}
    (hij : i < j) (hi : l[i]? = some x) (hj : l[j]? = some x) :
    ¬ l.Nodup := by
  intro hnd
  have hsub : List.Sublist [x, x] l := pair_sublist_of_getElem? hij hi hj
  have : ([x, x] : List α).Nodup := hnd.sublist hsub
  simp at this

/-- Genuinely duplicated entries make `dedup` strictly shorter. -/
theorem dedup_length_lt_of_not_nodup {α : Type _} [DecidableEq α] {l : List α}
    (h : ¬ l.Nodup) : l.dedup.length < l.length := by
  rcases Nat.lt_or_ge l.dedup.length l.length with hlt | hge
  · exact hlt
  · exfalso
    have hle : l.dedup.length ≤ l.length := l.dedup_sublist.length_le
    have heq : l.dedup = l := l.dedup_sublist.eq_of_length (le_antisymm hle hge)
    exact h (heq ▸ l.nodup_dedup)

/-! ## C5 helpers -/

/-- Folding `max` from an all-zero accumulator over all-zero values gives `0`. -/
theorem foldl_max_zeros (l : List ℚ) :
    ∀ a : ℚ, (∀ s ∈ l, s = 0) → a = 0 → l.foldl max a = 0 := by
  induction l with
  | nil => intro a _ ha; simpa using ha
  | cons s t ih =>
      intro a hl ha
      have hs : s = 0 := hl s (List.mem_cons_self ..)
      simp only [List.foldl_cons]
      exact ih (max a s) (fun x hx => hl x (List.mem_cons_of_mem _ hx)) (by simp [hs, ha])

/-- `max(keyword_scores)` of an all-zero non-empty vector is `0`. -/
theorem maxKeyword_all_zero (scores : List ℚ) (h : ∀ s ∈ scores, s = 0)
    (hne : scores ≠ []) : maxKeyword scores = 0 := by
  cases scores with
  | nil => exact absurd rfl hne
  | cons s t =>
      simp only [maxKeyword]
      exact foldl_max_zeros t s (fun x hx => h x (List.mem_cons_of_mem _ hx))
        (h s (List.mem_cons_self ..))

/-- C5: the BM25 scorer gives zero contribution to every query term with
document frequency `0` over the candidate set (so a query all of whose
terms are absent scores `0`); for present terms the contribution is the
BM25 formula with `k1 = 3/2` and `b = 3/4`, document frequency and average
document length computed over the candidate set itself; and normalising an
all-zero score vector maps every score to `0`. -/
theorem C5_bm25_zero_df_and_normalisation
    (lg : ℚ → ℚ) (tok : String → List String) (corpus : List String)
    (query : String) (i : ℕ) (hi : i < corpus.length) :
    (∀ term ∈ tok query,
        docFreq (corpus.map tok) term = 0 →
        bm25TermScore lg (corpus.map tok) ((corpus.map tok).getD i []) term = 0)
    ∧ ((∀ term ∈ tok query, docFreq (corpus.map tok) term = 0) →
        bm25Score lg tok corpus query i = 0)
    ∧ (∀ term ∈ tok query,
        docFreq (corpus.map tok) term ≠ 0 →
        bm25TermScore lg (corpus.map tok) ((corpus.map tok).getD i []) term =
          lg (((corpus.length : ℚ) - (docFreq (corpus.map tok) term : ℚ) + 1 / 2) /
                ((docFreq (corpus.map tok) term : ℚ) + 1 / 2) + 1) *
            (((((corpus.map tok).getD i []).count term : ℚ)) * (3 / 2 + 1)) /
            ((((corpus.map tok).getD i []).count term : ℚ) +
              3 / 2 * (1 - 3 / 4 +
                3 / 4 * (((corpus.map tok).getD i []).length : ℚ) / avgdl (corpus.map tok))))
    ∧ (∀ scores : List ℚ, (∀ s ∈ scores, s = 0) →
        normaliseKw scores = scores.map (fun _ => 0)) := by
  refine ⟨?_, ?_, ?_, ?_⟩
  · intro term _ hdf
    simp [bm25TermScore, hdf]
  · intro hall
    unfold bm25Score
    apply List.sum_eq_zero
    intro x hx
    rcases List.mem_map.mp hx with ⟨term, hterm, rfl⟩
    simp [bm25TermScore, hall term hterm]
  · intro term _ hdf
    rw [bm25TermScore, if_neg hdf]
    simp [bm25K1, bm25B, List.length_map]
  · intro scores hz
    by_cases hne : scores = []
    · subst hne; simp [normaliseKw]
    · have hmax : maxKeyword scores = 0 := maxKeyword_all_zero scores hz hne
      unfold normaliseKw
      rw [hmax]
      simp

/-- C5 witness: a concrete corpus, query and index satisfying the
hypothesis of `C5_bm25_zero_df_and_normalisation`. -/
theorem C5_witness :
    (0 : ℕ) < (["legal text"] : List String).length
    ∧ (∀ term ∈ (fun s => [s]) "query",
        docFreq ((["legal text"] : List String).map (fun s => [s])) term = 0 →
        bm25TermScore id ((["legal text"] : List String).map (fun s => [s]))
          (((["legal text"] : List String).map (fun s => [s])).getD 0 []) term = 0)
    ∧ (∀ scores : List ℚ, (∀ s ∈ scores, s = 0) →
        normaliseKw scores = scores.map (fun _ => 0)) :=
  ⟨by decide,
   (C5_bm25_zero_df_and_normalisation id (fun s => [s]) ["legal text"] "query" 0 (by decide)).1,
   (C5_bm25_zero_df_and_normalisation id (fun s => [s]) ["legal text"] "query" 0 (by decide)).2.2.2⟩

/-! ## C6: deterministic chunk ids and idempotent re-indexing -/

/-- A filter by a predicate is unchanged by filtering again. -/
theorem filter_idem {α : Type _} (p : α → Bool) (l : List α) :
    (l.filter p).filter p = l.filter p := by
  rw [List.filter_filter]
  exact List.filter_congr (fun a _ => by cases h : p a <;> simp [h])

/-- Upserting the same batch twice leaves the collection exactly as after
the first upsert: same ids overwrite instead of duplicating. -/
theorem upsertRows_idem (col rows : List Row) :
    upsertRows (upsertRows col rows) rows = upsertRows col rows := by
  unfold upsertRows
  rw [List.filter_append]
  have h1 : rows.filter (fun r => !(rows.any (fun nr => decide (nr.id = r.id)))) = [] := by
    apply List.filter_eq_nil_iff.mpr
    intro r hr
    simp only [Bool.not_eq_true', Bool.not_eq_false]
    exact List.any_eq_true.mpr ⟨r, hr, by simp⟩
  rw [h1, List.append_nil, filter_idem]

/-- The rows `_index_chunks` builds do not depend on the fresh-uuid source
when every chunk carries a non-empty `chunk_id`. -/
theorem buildRows_uuid_free (uuid₁ uuid₂ : ℕ → String) (chunks : List Chunk)
    (vectors : List (List ℚ))
    (hids : ∀ c ∈ chunks, ∃ cid, c.chunk_id = some cid ∧ cid ≠ "") :
    buildRows uuid₁ chunks vectors = buildRows uuid₂ chunks vectors := by
  unfold buildRows
  apply List.map_congr_left
  intro p hp
  have hc : p.2.1 ∈ chunks := by
    rw [List.enum_eq_zip_range] at hp
    exact (List.of_mem_zip (List.of_mem_zip hp).2).1
  rcases hids p.2.1 hc with ⟨cid, hcid, hne⟩
  simp [rowOfChunk, hcid, hne]

/-- C6: the chunk id is a deterministic function of
`(source, page, position-within-page, content-hash)`; upserting rows keyed
by those ids is idempotent (same id overwrites, never duplicates); and
re-running `_index_chunks` on the same chunks leaves the collection and the
returned count exactly as after the first run, even though the fresh-uuid
source differs between the two calls. -/
theorem C6_chunk_id_idempotent (hash : String → String)
    (embed : List String → Option (List (List ℚ))) (uuid₁ uuid₂ : ℕ → String)
    (chunks : List Chunk) (col : List Row)
    (hids : ∀ c ∈ chunks, ∃ cid, c.chunk_id = some cid ∧ cid ≠ "") :
    (∀ source page idx t t2, hash t = hash t2 →
        generate_chunk_id hash source page idx t = generate_chunk_id hash source page idx t2)
    ∧ (∀ rows, upsertRows (upsertRows col rows) rows = upsertRows col rows)
    ∧ indexChunks embed uuid₂ true chunks (indexChunks embed uuid₁ true chunks col).2
        = indexChunks embed uuid₁ true chunks col := by
  refine ⟨?_, fun rows => upsertRows_idem col rows, ?_⟩
  · intro source page idx t t2 h
    simp [generate_chunk_id, h]
  · unfold indexChunks
    by_cases hempty : chunks.isEmpty
    · simp [hempty]
    · simp only [hempty, if_false]
      cases hemb : embed (chunks.map (·.text)) with
      | none => simp
      | some vectors =>
          simp only
          rw [buildRows_uuid_free uuid₂ uuid₁ chunks vectors hids]
          simp [upsertRows_idem]

/-- C6 witness: a concrete chunk batch with non-empty ids. -/
theorem C6_witness :
    (∀ c ∈ ([⟨some "c1", "text", "a.pdf", 1, false⟩] : List Chunk),
        ∃ cid, c.chunk_id = some cid ∧ cid ≠ "")
    ∧ ((∀ source page idx t t2, (fun _ => "h") t = (fun _ => "h") t2 →
          generate_chunk_id (fun _ => "h") source page idx t
            = generate_chunk_id (fun _ => "h") source page idx t2)
    ∧ (∀ rows, upsertRows (upsertRows [] rows) rows = upsertRows [] rows)
    ∧ indexChunks (fun _ => some [[]]) (fun _ => "u2") true
          [⟨some "c1", "text", "a.pdf", 1, false⟩]
          (indexChunks (fun _ => some [[]]) (fun _ => "u1") true
            [⟨some "c1", "text", "a.pdf", 1, false⟩] []).2
        = indexChunks (fun _ => some [[]]) (fun _ => "u1") true
            [⟨some "c1", "text", "a.pdf", 1, false⟩] []) :=
  ⟨by decide,
   C6_chunk_id_idempotent (fun _ => "h") (fun _ => some [[]]) (fun _ => "u1") (fun _ => "u2")
     [⟨some "c1", "text", "a.pdf", 1, false⟩] [] (by decide)⟩

/-! ## C7: filter-expression escaping for source deletion -/

/-- `parseQuotedBody` consumes an escaped character pair. -/
theorem parseQuotedBody_esc (c2 : Char) (rest2 : List Char) :
    parseQuotedBody ('\\' :: c2 :: rest2)
      = (parseQuotedBody rest2).map (fun t => c2 :: t) := rfl

/-- `parseQuotedBody` on an ordinary character keeps it and recurses. -/
theorem parseQuotedBody_other (c : Char) (rest : List Char)
    (hc : c ≠ '\\') (hq : c ≠ '"') :
    parseQuotedBody (c :: rest) = (parseQuotedBody rest).map (fun t => c :: t) := by
  rw [parseQuotedBody.eq_def]
  simp [hc, hq]

/-- Round-trip of the quote-escaping through the filter-language literal
reader, for names free of the escape character itself. -/
theorem parseQuotedBody_escape (s : List Char) (hs : '\\' ∉ s) :
    parseQuotedBody
        ((s.flatMap (fun c => if c = '"' then ['\\', '"'] else [c])) ++ ['"'])
      = some s := by
  induction s with
  | nil =>
      show parseQuotedBody ['"'] = some []
      rfl
  | cons c t ih =>
      have hc : c ≠ '\\' := fun h => hs (h ▸ List.mem_cons_self ..)
      have ht : '\\' ∉ t := fun h => hs (List.mem_cons_of_mem _ h)
      by_cases hq : c = '"'
      · subst hq
        rw [List.flatMap_cons, if_pos rfl]
        show parseQuotedBody ('\\' :: '"' ::
            ((t.flatMap (fun c => if c = '"' then ['\\', '"'] else [c])) ++ ['"']))
          = some ('"' :: t)
        rw [parseQuotedBody_esc, ih ht]
        rfl
      · rw [List.flatMap_cons, if_neg hq]
        show parseQuotedBody (c ::
            ((t.flatMap (fun c => if c = '"' then ['\\', '"'] else [c])) ++ ['"']))
          = some (c :: t)
        rw [parseQuotedBody_other c _ hc hq, ih ht]
        rfl

/-- The full expression built by `delete_file_vectors` parses back to
exactly the original source name when the name has no backslash. -/
theorem parse_filterExpr_roundtrip (name : String) (h : '\\' ∉ name.data) :
    parseSourceEqFilter (filterExprForSource name) = some name := by
  unfold parseSourceEqFilter filterExprForSource
  have hdata : ("source == \"" ++ escapeQuotes name ++ "\"").data
      = "source == \"".data ++ ((escapeQuotes name).data ++ "\"".data) := by
    rw [String.data_append, String.data_append, List.append_assoc]
  rw [hdata]
  rw [List.take_left' (by decide), List.drop_left' (by decide)]
  have : (escapeQuotes name).data
      = name.data.flatMap (fun c => if c = '"' then ['\\', '"'] else [c]) := rfl
  rw [this]
  have hq : ("\"" : String).data = ['"'] := rfl
  rw [hq, parseQuotedBody_escape name.data h]
  rfl

/-- `delete_file_vectors` removes exactly the rows with the given source
from one collection, for backslash-free names. -/
theorem deleteByFilter_exact (name : String) (col : List Row)
    (h : '\\' ∉ name.data) :
    deleteByFilter (filterExprForSource name) col
      = col.filter (fun r => r.source ≠ name) := by
  unfold deleteByFilter
  rw [parse_filterExpr_roundtrip name h]

/-- C7 (amended): for every source name free of the filter language's
escape character `\`, `delete_file_vectors` builds a correctly
quote-escaped equality filter and removes exactly the rows whose `source`
equals the name, in each collection; a name containing a backslash defeats
the escaping (see the counterexample). -/
theorem C7_delete_by_source_escaped (name : String) (st : StoreState)
    (h : '\\' ∉ name.data) :
    parseSourceEqFilter (filterExprForSource name) = some name
    ∧ delete_file_vectors name st
        = ⟨st.general.filter (fun r => r.source ≠ name),
           st.defs.filter (fun r => r.source ≠ name)⟩ := by
  refine ⟨parse_filterExpr_roundtrip name h, ?_⟩
  simp only [delete_file_vectors]
  rw [deleteByFilter_exact name st.general h, deleteByFilter_exact name st.defs h]

/-- C7 counterexample: a source name ending in a backslash produces a
malformed filter (the escaped closing quote never terminates the literal),
so the delete removes nothing even though a row with exactly that source
is stored — the claim fails for names containing the escape character. -/
theorem C7_counterexample :
    (⟨"id1", [], "t", "a\\", 1, false, "id1"⟩ : Row).source = "a\\"
    ∧ parseSourceEqFilter (filterExprForSource "a\\") = none
    ∧ delete_file_vectors "a\\" ⟨[⟨"id1", [], "t", "a\\", 1, false, "id1"⟩], []⟩
        = ⟨[⟨"id1", [], "t", "a\\", 1, false, "id1"⟩], []⟩ := by
  refine ⟨by decide, by decide, by decide⟩

/-- C7 witness: a concrete quote-containing name round-trips and deletes
exactly the matching row. -/
theorem C7_witness :
    ('\\' ∉ ("a\"b.pdf" : String).data)
    ∧ (parseSourceEqFilter (filterExprForSource "a\"b.pdf") = some "a\"b.pdf"
    ∧ delete_file_vectors "a\"b.pdf"
          ⟨[⟨"id1", [], "t", "a\"b.pdf", 1, false, "id1"⟩], []⟩
        = ⟨[⟨"id1", [], "t", "a\"b.pdf", 1, false, "id1"⟩].filter
              (fun r => r.source ≠ "a\"b.pdf"),
           ([] : List Row).filter (fun r => r.source ≠ "a\"b.pdf")⟩) :=
  ⟨by decide,
   C7_delete_by_source_escaped "a\"b.pdf"
     ⟨[⟨"id1", [], "t", "a\"b.pdf", 1, false, "id1"⟩], []⟩ (by decide)⟩

/-! ## C2: silent fallback of the rerank stage -/

/-- C2: whenever the FlashRank backend is unavailable (import failure) or
raises, the rank-fusion output is exactly the deduplicated Stage-D
candidate order truncated to the first `RERANK_TOP_K` elements, the call
returns normally (it is a total function of the failure), and the result
is non-empty whenever the deduplicated candidates are non-empty. -/
theorem C2_rerank_fallback (backend : RerankBackend) (merged : List HDoc)
    (h : backend = .unavailable ∨ ∃ msg, backend = .failure msg) :
    flashrank_rerank backend (dedupDocs merged) RERANK_TOP_K
        = (dedupDocs merged).take RERANK_TOP_K
    ∧ (dedupDocs merged ≠ [] →
        flashrank_rerank backend (dedupDocs merged) RERANK_TOP_K ≠ []) := by
  have heq : flashrank_rerank backend (dedupDocs merged) RERANK_TOP_K
      = (dedupDocs merged).take RERANK_TOP_K := by
    rcases h with h | ⟨msg, h⟩ <;> subst h <;> rfl
  refine ⟨heq, fun hne => ?_⟩
  rw [heq]
  intro htake
  rcases List.take_eq_nil_iff.mp htake with h5 | h0
  · exact absurd h5 (by simp [RERANK_TOP_K])
  · exact hne h0

/-- C2 witness: a concrete failing backend and non-empty candidate list. -/
theorem C2_witness :
    ((RerankBackend.failure "model missing") = RerankBackend.unavailable
      ∨ ∃ msg, (RerankBackend.failure "model missing") = RerankBackend.failure msg)
    ∧ (flashrank_rerank (.failure "model missing")
          (dedupDocs [⟨"first chunk", some "c1"⟩, ⟨"second chunk", some "c2"⟩])
          RERANK_TOP_K
        = (dedupDocs [⟨"first chunk", some "c1"⟩, ⟨"second chunk", some "c2"⟩]).take
            RERANK_TOP_K
    ∧ (dedupDocs [⟨"first chunk", some "c1"⟩, ⟨"second chunk", some "c2"⟩] ≠ [] →
        flashrank_rerank (.failure "model missing")
            (dedupDocs [⟨"first chunk", some "c1"⟩, ⟨"second chunk", some "c2"⟩])
            RERANK_TOP_K ≠ [])) :=
  ⟨Or.inr ⟨"model missing", rfl⟩,
   C2_rerank_fallback (.failure "model missing")
     [⟨"first chunk", some "c1"⟩, ⟨"second chunk", some "c2"⟩]
     (Or.inr ⟨"model missing", rfl⟩)⟩

/-! ## C4: all-or-nothing batch indexing -/

/-- `_index_chunks` on a successful embed and write. -/
theorem indexChunks_success (embed : List String → Option (List (List ℚ)))
    (uuid : ℕ → String) (chunks : List Chunk) (col : List Row)
    (vectors : List (List ℚ)) (hne : chunks ≠ [])
    (hemb : embed (chunks.map (·.text)) = some vectors) :
    indexChunks embed uuid true chunks col
      = ((buildRows uuid chunks vectors).length,
         upsertRows col (buildRows uuid chunks vectors)) := by
  unfold indexChunks
  rw [if_neg (by simpa using hne), hemb]
  rfl

/-- C4: the upsert operation returns the batch size on success with the
whole batch recorded; on an embedding failure or a write failure it
returns `0` and the collection is exactly as before the call — the batch
is never partially committed. -/
theorem C4_upsert_all_or_nothing (embed : List String → Option (List (List ℚ)))
    (uuid : ℕ → String) (writeOk : Bool) (chunks : List Chunk) (col : List Row) :
    (embed (chunks.map (·.text)) = none →
        indexChunks embed uuid writeOk chunks col = (0, col))
    ∧ (writeOk = false → indexChunks embed uuid writeOk chunks col = (0, col))
    ∧ (∀ vectors, writeOk = true → embed (chunks.map (·.text)) = some vectors →
        chunks ≠ [] →
        indexChunks embed uuid writeOk chunks col
            = ((buildRows uuid chunks vectors).length,
               upsertRows col (buildRows uuid chunks vectors))
          ∧ ∀ r ∈ buildRows uuid chunks vectors,
              r ∈ (indexChunks embed uuid writeOk chunks col).2) := by
  refine ⟨?_, ?_, ?_⟩
  · intro hemb
    unfold indexChunks
    by_cases hempty : chunks.isEmpty <;> simp [hempty, hemb]
  · intro hw
    subst hw
    unfold indexChunks
    by_cases hempty : chunks.isEmpty
    · simp [hempty]
    · simp only [hempty, if_false]
      cases embed (chunks.map (·.text)) <;> simp
  · intro vectors hw hemb hne
    subst hw
    have hsucc := indexChunks_success embed uuid chunks col vectors hne hemb
    refine ⟨hsucc, fun r hr => ?_⟩
    rw [hsucc]
    exact List.mem_append_right _ hr

/-- C4 witness: a concrete successful batch. -/
theorem C4_witness :
    ((fun ts => some (ts.map (fun _ => ([] : List ℚ)))) (([⟨some "c1", "t", "a.pdf", 1, false⟩] : List Chunk).map (·.text))
        = some [[]])
    ∧ (([⟨some "c1", "t", "a.pdf", 1, false⟩] : List Chunk) ≠ [])
    ∧ (indexChunks (fun ts => some (ts.map (fun _ => ([] : List ℚ)))) (fun _ => "u") true
          [⟨some "c1", "t", "a.pdf", 1, false⟩] []
        = ((buildRows (fun _ => "u") [⟨some "c1", "t", "a.pdf", 1, false⟩] [[]]).length,
           upsertRows [] (buildRows (fun _ => "u") [⟨some "c1", "t", "a.pdf", 1, false⟩] [[]]))
      ∧ ∀ r ∈ buildRows (fun _ => "u") [⟨some "c1", "t", "a.pdf", 1, false⟩] [[]],
          r ∈ (indexChunks (fun ts => some (ts.map (fun _ => ([] : List ℚ)))) (fun _ => "u") true
              [⟨some "c1", "t", "a.pdf", 1, false⟩] []).2) :=
  ⟨rfl, by decide,
   (C4_upsert_all_or_nothing (fun ts => some (ts.map (fun _ => ([] : List ℚ))))
       (fun _ => "u") true [⟨some "c1", "t", "a.pdf", 1, false⟩] []).2.2
     [[]] rfl rfl (by decide)⟩

/-! ## C8: deduplication fallback key for documents without a chunk id -/

/-- Everything `dedupLoop` keeps comes from the input list. -/
theorem dedupLoop_subset (l : List HDoc) :
    ∀ (seen : List String) (d : HDoc), d ∈ dedupLoop l seen → d ∈ l := by
  induction l with
  | nil => intro seen d hd; simp [dedupLoop] at hd
  | cons a t ih =>
      intro seen d hd
      unfold dedupLoop at hd
      by_cases hseen : dedupKey a ∈ seen
      · rw [if_pos hseen] at hd
        exact List.mem_cons_of_mem _ (ih seen d hd)
      · rw [if_neg hseen] at hd
        rcases List.mem_cons.mp hd with h | h
        · exact h ▸ List.mem_cons_self ..
        · exact List.mem_cons_of_mem _ (ih _ d h)

/-- Keys already seen never reappear in the output of `dedupLoop`. -/
theorem dedupLoop_countP_seen (l : List HDoc) :
    ∀ (seen : List String) (k : String), k ∈ seen →
      (dedupLoop l seen).countP (fun d => dedupKey d = k) = 0 := by
  induction l with
  | nil => intro seen k _; simp [dedupLoop]
  | cons a t ih =>
      intro seen k hk
      unfold dedupLoop
      by_cases hseen : dedupKey a ∈ seen
      · rw [if_pos hseen]
        exact ih seen k hk
      · rw [if_neg hseen]
        have hne : dedupKey a ≠ k := fun h => hseen (h ▸ hk)
        rw [List.countP_cons]
        rw [ih _ k (List.mem_cons_of_mem _ hk)]
        simp [hne]

/-- Each key survives at most once in the output of `dedupLoop`. -/
theorem dedupLoop_countP_le_one (l : List HDoc) :
    ∀ (seen : List String) (k : String),
      (dedupLoop l seen).countP (fun d => dedupKey d = k) ≤ 1 := by
  induction l with
  | nil => intro seen k; simp [dedupLoop]
  | cons a t ih =>
      intro seen k
      unfold dedupLoop
      by_cases hseen : dedupKey a ∈ seen
      · rw [if_pos hseen]; exact ih seen k
      · rw [if_neg hseen]
        by_cases hk : dedupKey a = k
        · rw [List.countP_cons]
          subst hk
          have h0 : (dedupLoop t (dedupKey a :: seen)).countP
              (fun d => decide (dedupKey d = dedupKey a)) = 0 :=
            dedupLoop_countP_seen t _ _ (List.mem_cons_self ..)
          rw [h0]
          simp
        · rw [List.countP_cons]
          have hle := ih (dedupKey a :: seen) k
          simp only [hk, decide_eq_true_eq, if_neg]
          simp [hk]
          exact hle

/-- `dedupLoop` keeps the first occurrence of each not-yet-seen key. -/
theorem dedupLoop_find? (l : List HDoc) :
    ∀ (seen : List String) (k : String), k ∉ seen →
      (dedupLoop l seen).find? (fun d => dedupKey d = k)
        = l.find? (fun d => dedupKey d = k) := by
  induction l with
  | nil => intro seen k _; simp [dedupLoop]
  | cons a t ih =>
      intro seen k hk
      unfold dedupLoop
      by_cases hak : dedupKey a = k
      · have hseen : dedupKey a ∉ seen := fun h => hk (hak ▸ h)
        rw [if_neg hseen]
        rw [List.find?_cons_of_pos _ (by simpa using hak),
          List.find?_cons_of_pos _ (by simpa using hak)]
      · by_cases hseen : dedupKey a ∈ seen
        · rw [if_pos hseen]
          rw [List.find?_cons_of_neg _ (by simpa using hak)]
          exact ih seen k hk
        · rw [if_neg hseen]
          rw [List.find?_cons_of_neg _ (by simpa using hak),
            List.find?_cons_of_neg _ (by simpa using hak)]
          exact ih _ k (by simp [hk, Ne.symm hak])

/-- C8: in Stage-4 deduplication, a document without a `chunk_id` metadata
entry is keyed by the first 32 characters of its text; for two distinct
such documents with the same 32-character prefix, exactly one document
with that key survives, namely the first (highest combined score)
occurrence in the merged list. -/
theorem C8_dedup_prefix_fallback (l : List HDoc) (i j : ℕ) (di dj : HDoc)
    (hij : i < j) (hi : l[i]? = some di) (hj : l[j]? = some dj)
    (hdi : di.chunk_id = none) (hdj : dj.chunk_id = none)
    (hpre : strTake di.text 32 = strTake dj.text 32) (hne : di ≠ dj) :
    dedupKey dj = strTake dj.text 32
    ∧ (dedupDocs l).countP (fun d => dedupKey d = dedupKey dj) = 1
    ∧ (dedupDocs l).find? (fun d => dedupKey d = dedupKey dj)
        = l.find? (fun d => dedupKey d = dedupKey dj) := by
  have hkey : dedupKey dj = strTake dj.text 32 := by simp [dedupKey, hdj]
  have hfind : (dedupDocs l).find? (fun d => dedupKey d = dedupKey dj)
      = l.find? (fun d => dedupKey d = dedupKey dj) :=
    dedupLoop_find? l [] (dedupKey dj) (by simp)
  refine ⟨hkey, ?_, hfind⟩
  have hmem : dj ∈ l := List.getElem?_mem hj
  have hpos : 0 < (dedupDocs l).countP (fun d => dedupKey d = dedupKey dj) := by
    apply List.countP_pos_iff.mpr
    have hsome : (l.find? (fun d => dedupKey d = dedupKey dj)).isSome :=
      List.find?_isSome.mpr ⟨dj, hmem, by simp⟩
    rcases Option.isSome_iff_exists.mp hsome with ⟨d, hd⟩
    have hd2 : (dedupDocs l).find? (fun d => dedupKey d = dedupKey dj) = some d :=
      hfind.trans hd
    refine ⟨d, List.mem_of_find?_eq_some hd2, ?_⟩
    have hp := List.find?_some hd2
    simpa using hp
  have hle : (dedupDocs l).countP (fun d => dedupKey d = dedupKey dj) ≤ 1 :=
    dedupLoop_countP_le_one l [] (dedupKey dj)
  omega

/-- C8 witness: two distinct chunk-id-less documents sharing a
32-character prefix. -/
theorem C8_witness :
    ((0 : ℕ) < 1)
    ∧ (([⟨"aaaaaaaaaaaaaaaaaaaaaaaaaaaaaaaax", none⟩,
         ⟨"aaaaaaaaaaaaaaaaaaaaaaaaaaaaaaaay", none⟩] : List HDoc)[0]?
        = some ⟨"aaaaaaaaaaaaaaaaaaaaaaaaaaaaaaaax", none⟩)
    ∧ (dedupKey (⟨"aaaaaaaaaaaaaaaaaaaaaaaaaaaaaaaay", none⟩ : HDoc)
        = strTake "aaaaaaaaaaaaaaaaaaaaaaaaaaaaaaaay" 32
    ∧ (dedupDocs [⟨"aaaaaaaaaaaaaaaaaaaaaaaaaaaaaaaax", none⟩,
          ⟨"aaaaaaaaaaaaaaaaaaaaaaaaaaaaaaaay", none⟩]).countP
          (fun d => dedupKey d = dedupKey ⟨"aaaaaaaaaaaaaaaaaaaaaaaaaaaaaaaay", none⟩) = 1
    ∧ (dedupDocs [⟨"aaaaaaaaaaaaaaaaaaaaaaaaaaaaaaaax", none⟩,
          ⟨"aaaaaaaaaaaaaaaaaaaaaaaaaaaaaaaay", none⟩]).find?
          (fun d => dedupKey d = dedupKey ⟨"aaaaaaaaaaaaaaaaaaaaaaaaaaaaaaaay", none⟩)
        = ([⟨"aaaaaaaaaaaaaaaaaaaaaaaaaaaaaaaax", none⟩,
            ⟨"aaaaaaaaaaaaaaaaaaaaaaaaaaaaaaaay", none⟩] : List HDoc).find?
          (fun d => dedupKey d = dedupKey ⟨"aaaaaaaaaaaaaaaaaaaaaaaaaaaaaaaay", none⟩)) :=
  ⟨by decide, by decide,
   C8_dedup_prefix_fallback
     [⟨"aaaaaaaaaaaaaaaaaaaaaaaaaaaaaaaax", none⟩,
      ⟨"aaaaaaaaaaaaaaaaaaaaaaaaaaaaaaaay", none⟩]
     0 1 ⟨"aaaaaaaaaaaaaaaaaaaaaaaaaaaaaaaax", none⟩
     ⟨"aaaaaaaaaaaaaaaaaaaaaaaaaaaaaaaay", none⟩
     (by decide) (by decide) (by decide) (by decide) (by decide) (by decide)
     (by decide)⟩

/-! ## C1: the rank-fusion combine stage -/

/-- The `combined` list pairs hit `i` with its combined score. -/
theorem combinePairs_getElem? {α : Type _} (hits : List α) (normKw : List ℚ)
    (i : ℕ) (d : α) (hi : hits[i]? = some d) :
    (combinePairs hits normKw)[i]? =
      some (combinedScore hits.length i (normKw.getD i 0), d) := by
  unfold combinePairs
  rw [List.getElem?_map]
  have hlt : i < hits.length := (List.getElem?_eq_some.mp hi).1
  have hz : ((List.range hits.length).zip hits)[i]? = some (i, d) :=
    List.getElem?_zip_eq_some.mpr ⟨by simpa using List.getElem?_range hlt, hi⟩
  rw [hz]
  rfl

/-- `getD` agrees with a successful indexed lookup. -/
theorem getD_eq_of_getElem? (l : List ℚ) (i : ℕ) (x : ℚ) (h : l[i]? = some x) :
    l.getD i 0 = x := by
  simp [List.getD, h]

/-- C1: the combine stage assigns hit at 0-indexed semantic rank `i` out
of `n` the combined score `0.6 * ((n - i) / n) + 0.4 * norm_kw[i]`, sorts
the pairs in descending order of combined score, keeps exactly the scored
pairs (a permutation), and the sort is stable: two pairs with equal
combined scores keep their relative order from the semantic stage. -/
theorem C1_combine_stage (α : Type _) (hits : List α) (normKw : List ℚ)
    (hne : hits ≠ []) (hlen : normKw.length = hits.length) :
    (∀ (i : ℕ) (d : α) (kw : ℚ), hits[i]? = some d → normKw[i]? = some kw →
        (combinePairs hits normKw)[i]? =
          some (6 / 10 * (((hits.length : ℚ) - (i : ℚ)) / (hits.length : ℚ))
            + 4 / 10 * kw, d))
    ∧ List.Perm (combineSort (combinePairs hits normKw)) (combinePairs hits normKw)
    ∧ (combineSort (combinePairs hits normKw)).Pairwise
        (fun a b => b.1 ≤ a.1)
    ∧ (∀ a b : ℚ × α, List.Sublist [a, b] (combinePairs hits normKw) → a.1 = b.1 →
        List.Sublist [a, b] (combineSort (combinePairs hits normKw))) := by
  refine ⟨?_, ?_, ?_, ?_⟩
  · intro i d kw hd hkw
    rw [combinePairs_getElem? hits normKw i d hd,
      getD_eq_of_getElem? normKw i kw hkw]
    rfl
  · exact List.perm_insertionSort _ _
  · exact List.sorted_insertionSort combinedGe _
  · intro a b hsub heq
    exact List.pair_sublist_insertionSort heq.ge hsub

/-- C1 witness: a concrete two-hit list with keyword scores. -/
theorem C1_witness :
    (([10, 20] : List ℕ) ≠ [])
    ∧ ([(0 : ℚ), 0].length = ([10, 20] : List ℕ).length)
    ∧ (combineSort (combinePairs ([10, 20] : List ℕ) [0, 0])).Pairwise
        (fun a b => b.1 ≤ a.1)
    ∧ List.Perm (combineSort (combinePairs ([10, 20] : List ℕ) [0, 0]))
        (combinePairs ([10, 20] : List ℕ) [0, 0]) :=
  ⟨by decide, by decide,
   (C1_combine_stage ℕ [10, 20] [0, 0] (by decide) (by decide)).2.2.1,
   (C1_combine_stage ℕ [10, 20] [0, 0] (by decide) (by decide)).2.1⟩

/-! ## Sync machinery lemmas -/

/-- A name reported by a (successful) capped source scan really is the
non-empty source of some stored row — the scan never invents sources,
capped or not. -/
theorem mem_indexedSources_elim (st : StoreState) (n : String)
    (h : n ∈ indexedSources true st) :
    (∃ r ∈ st.general, r.source = n) ∧ n ≠ "" := by
  unfold indexedSources at h
  rw [if_pos rfl, List.mem_dedup] at h
  rcases List.mem_map.mp h with ⟨r, hr, hsrc⟩
  have hr2 : r ∈ st.general.filter (fun r => r.source ≠ "") :=
    List.take_subset _ _ hr
  rcases List.mem_filter.mp hr2 with ⟨hrg, hne⟩
  have hne2 : r.source ≠ "" := by simpa using hne
  exact ⟨⟨r, hrg, hsrc⟩, hsrc ▸ hne2⟩

/-- For a store below the scan cap, a successful scan reports every
stored non-empty source — the cap only loses sources above
`QUERY_LIMIT` rows. -/
theorem mem_indexedSources_intro (st : StoreState) (n : String)
    (hcap : st.general.length ≤ QUERY_LIMIT)
    (hex : ∃ r ∈ st.general, r.source = n) (hne : n ≠ "") :
    n ∈ indexedSources true st := by
  unfold indexedSources
  rw [if_pos rfl]
  have hflen : (st.general.filter (fun r => r.source ≠ "")).length ≤ QUERY_LIMIT :=
    le_trans (List.length_filter_le _ _) hcap
  rw [List.take_of_length_le hflen, List.mem_dedup]
  rcases hex with ⟨r, hrg, hsrc⟩
  exact List.mem_map.mpr
    ⟨r, List.mem_filter.mpr ⟨hrg, by simp [hsrc, hne]⟩, hsrc⟩

/-- Membership in the modelled Python set difference. -/
theorem mem_listDiff (xs ys : List String) (n : String) :
    n ∈ listDiff xs ys ↔ n ∈ xs ∧ n ∉ ys := by
  unfold listDiff
  rw [List.mem_filter]
  simp [List.elem_iff]

/-- `nameSort` is a permutation, so keeps membership. -/
theorem mem_nameSort (l : List String) (n : String) : n ∈ nameSort l ↔ n ∈ l :=
  (List.perm_insertionSort nameLe l).mem_iff

/-- `nameSort` keeps `Nodup`. -/
theorem nodup_nameSort (l : List String) (h : l.Nodup) : (nameSort l).Nodup :=
  ((List.perm_insertionSort nameLe l).nodup_iff).mpr h

/-- The add worklist, built from deduplicated basenames, has no
duplicates. -/
theorem nodup_listDiff_dedup (disk : List DiskFile) (ys : List String) :
    (listDiff ((disk.map (·.name)).dedup) ys).Nodup := by
  unfold listDiff
  exact ((disk.map (·.name)).nodup_dedup).filter _

/-- The dict comprehension resolves a name to a file actually named so. -/
theorem diskFileFor_name (disk : List DiskFile) (n : String) (f : DiskFile)
    (h : diskFileFor disk n = some f) : f.name = n := by
  unfold diskFileFor at h
  have hmem : f ∈ disk.filter (fun g => g.name = n) := List.mem_of_mem_getLast? h
  have hp := (List.mem_filter.mp hmem).2
  simpa using hp

/-- Every on-disk basename resolves to some file. -/
theorem diskFileFor_isSome (disk : List DiskFile) (n : String)
    (h : n ∈ (disk.map (·.name)).dedup) : (diskFileFor disk n).isSome := by
  rcases List.mem_map.mp (List.mem_dedup.mp h) with ⟨f, hf, hname⟩
  have hne : disk.filter (fun g => g.name = n) ≠ [] :=
    List.ne_nil_of_mem (List.mem_filter.mpr ⟨hf, by simpa using hname⟩)
  exact List.getLast?_isSome.mpr hne

/-- A resolvable name is an on-disk basename. -/
theorem mem_diskNames_of_diskFileFor (disk : List DiskFile) (n : String)
    (f : DiskFile) (h : diskFileFor disk n = some f) :
    n ∈ (disk.map (·.name)).dedup := by
  unfold diskFileFor at h
  have hmem : f ∈ disk.filter (fun g => g.name = n) := List.mem_of_mem_getLast? h
  rcases List.mem_filter.mp hmem with ⟨hfd, hn⟩
  exact List.mem_dedup.mpr (List.mem_map.mpr ⟨f, hfd, by simpa using hn⟩)

/-- `syncAdds` on the empty worklist. -/
theorem syncAdds_nil (embed : List String → Option (List (List ℚ)))
    (uuid : ℕ → String) (upsertOk : List Chunk → Bool) (disk : List DiskFile) (st : StoreState) :
    syncAdds embed uuid upsertOk disk [] st = ([], [], st) := rfl

/-- `syncAdds` skips a name the dict cannot resolve (unreachable for
names coming from the disk listing). -/
theorem syncAdds_cons_none (embed : List String → Option (List (List ℚ)))
    (uuid : ℕ → String) (upsertOk : List Chunk → Bool) (disk : List DiskFile) (name : String)
    (rest : List String) (st : StoreState)
    (hf : diskFileFor disk name = none) :
    syncAdds embed uuid upsertOk disk (name :: rest) st
      = syncAdds embed uuid upsertOk disk rest st := by
  conv_lhs => rw [syncAdds]
  rw [hf]

/-- `syncAdds` on a file whose indexing reports `"ok"`. -/
theorem syncAdds_cons_ok (embed : List String → Option (List (List ℚ)))
    (uuid : ℕ → String) (upsertOk : List Chunk → Bool) (disk : List DiskFile) (name : String)
    (rest : List String) (st : StoreState) (f : DiskFile)
    (hf : diskFileFor disk name = some f)
    (hok : (index_file embed uuid upsertOk f st).1.status = "ok") :
    syncAdds embed uuid upsertOk disk (name :: rest) st
      = (name :: (syncAdds embed uuid upsertOk disk rest (index_file embed uuid upsertOk f st).2).1,
         (syncAdds embed uuid upsertOk disk rest (index_file embed uuid upsertOk f st).2).2.1,
         (syncAdds embed uuid upsertOk disk rest (index_file embed uuid upsertOk f st).2).2.2) := by
  conv_lhs => rw [syncAdds]
  rw [hf]
  show (if (index_file embed uuid upsertOk f st).1.status = "ok" then
      (name :: (syncAdds embed uuid upsertOk disk rest (index_file embed uuid upsertOk f st).2).1,
       (syncAdds embed uuid upsertOk disk rest (index_file embed uuid upsertOk f st).2).2.1,
       (syncAdds embed uuid upsertOk disk rest (index_file embed uuid upsertOk f st).2).2.2)
    else
      ((syncAdds embed uuid upsertOk disk rest (index_file embed uuid upsertOk f st).2).1,
       name :: (syncAdds embed uuid upsertOk disk rest (index_file embed uuid upsertOk f st).2).2.1,
       (syncAdds embed uuid upsertOk disk rest (index_file embed uuid upsertOk f st).2).2.2)) = _
  rw [if_pos hok]

/-- `syncAdds` on a file whose indexing reports anything but `"ok"`. -/
theorem syncAdds_cons_err (embed : List String → Option (List (List ℚ)))
    (uuid : ℕ → String) (upsertOk : List Chunk → Bool) (disk : List DiskFile) (name : String)
    (rest : List String) (st : StoreState) (f : DiskFile)
    (hf : diskFileFor disk name = some f)
    (hne : (index_file embed uuid upsertOk f st).1.status ≠ "ok") :
    syncAdds embed uuid upsertOk disk (name :: rest) st
      = ((syncAdds embed uuid upsertOk disk rest (index_file embed uuid upsertOk f st).2).1,
         name :: (syncAdds embed uuid upsertOk disk rest (index_file embed uuid upsertOk f st).2).2.1,
         (syncAdds embed uuid upsertOk disk rest (index_file embed uuid upsertOk f st).2).2.2) := by
  conv_lhs => rw [syncAdds]
  rw [hf]
  show (if (index_file embed uuid upsertOk f st).1.status = "ok" then
      (name :: (syncAdds embed uuid upsertOk disk rest (index_file embed uuid upsertOk f st).2).1,
       (syncAdds embed uuid upsertOk disk rest (index_file embed uuid upsertOk f st).2).2.1,
       (syncAdds embed uuid upsertOk disk rest (index_file embed uuid upsertOk f st).2).2.2)
    else
      ((syncAdds embed uuid upsertOk disk rest (index_file embed uuid upsertOk f st).2).1,
       name :: (syncAdds embed uuid upsertOk disk rest (index_file embed uuid upsertOk f st).2).2.1,
       (syncAdds embed uuid upsertOk disk rest (index_file embed uuid upsertOk f st).2).2.2)) = _
  rw [if_neg hne]

/-- `syncDeletes` unfolding. -/
theorem syncDeletes_cons (name : String) (rest : List String) (st : StoreState) :
    syncDeletes (name :: rest) st
      = (name :: (syncDeletes rest (delete_file_vectors name st)).1,
         (syncDeletes rest (delete_file_vectors name st)).2) := rfl

/-- Names recorded in `added` come from the worklist. -/
theorem syncAdds_added_subset (embed : List String → Option (List (List ℚ)))
    (uuid : ℕ → String) (upsertOk : List Chunk → Bool) (disk : List DiskFile) :
    ∀ (names : List String) (st : StoreState) (n : String),
      n ∈ (syncAdds embed uuid upsertOk disk names st).1 → n ∈ names := by
  intro names
  induction names with
  | nil => intro st n h; rw [syncAdds_nil] at h; exact absurd h (List.not_mem_nil n)
  | cons name rest ih =>
      intro st n h
      cases hf : diskFileFor disk name with
      | none =>
          rw [syncAdds_cons_none embed uuid upsertOk disk name rest st hf] at h
          exact List.mem_cons_of_mem _ (ih st n h)
      | some f =>
          by_cases hok : (index_file embed uuid upsertOk f st).1.status = "ok"
          · rw [syncAdds_cons_ok embed uuid upsertOk disk name rest st f hf hok] at h
            rcases List.mem_cons.mp h with h | h
            · exact h ▸ List.mem_cons_self ..
            · exact List.mem_cons_of_mem _ (ih _ n h)
          · rw [syncAdds_cons_err embed uuid upsertOk disk name rest st f hf hok] at h
            exact List.mem_cons_of_mem _ (ih _ n h)

/-- `added ++ errors` is a permutation of the worklist (when every name
resolves to a file, as is the case for names from the disk listing). -/
theorem syncAdds_perm (embed : List String → Option (List (List ℚ)))
    (uuid : ℕ → String) (upsertOk : List Chunk → Bool) (disk : List DiskFile) :
    ∀ (names : List String) (st : StoreState),
      (∀ n ∈ names, (diskFileFor disk n).isSome) →
      List.Perm
        ((syncAdds embed uuid upsertOk disk names st).1
          ++ (syncAdds embed uuid upsertOk disk names st).2.1) names := by
  intro names
  induction names with
  | nil => intro st _; rw [syncAdds_nil]; rfl
  | cons name rest ih =>
      intro st hall
      rcases Option.isSome_iff_exists.mp (hall name (List.mem_cons_self ..)) with ⟨f, hf⟩
      have hrest : ∀ n ∈ rest, (diskFileFor disk n).isSome :=
        fun n hn => hall n (List.mem_cons_of_mem _ hn)
      by_cases hok : (index_file embed uuid upsertOk f st).1.status = "ok"
      · rw [syncAdds_cons_ok embed uuid upsertOk disk name rest st f hf hok]
        simp only [List.cons_append]
        exact (ih _ hrest).cons name
      · rw [syncAdds_cons_err embed uuid upsertOk disk name rest st f hf hok]
        exact List.Perm.trans List.perm_middle ((ih _ hrest).cons name)

/-- A file whose loading extracts no content is recorded in `errors` and
never in `added`, every time the add loop processes its name. -/
theorem syncAdds_errors_of_empty (embed : List String → Option (List (List ℚ)))
    (uuid : ℕ → String) (upsertOk : List Chunk → Bool) (disk : List DiskFile) :
    ∀ (names : List String) (st : StoreState) (name : String) (f : DiskFile),
      names.Nodup → name ∈ names → diskFileFor disk name = some f →
      f.pipeline = .noContent →
      name ∈ (syncAdds embed uuid upsertOk disk names st).2.1
      ∧ name ∉ (syncAdds embed uuid upsertOk disk names st).1 := by
  intro names
  induction names with
  | nil => intro st name f _ hmem _ _; exact absurd hmem (List.not_mem_nil _)
  | cons hd rest ih =>
      intro st name f hnd hmem hf hp
      by_cases hhd : hd = name
      · subst hhd
        have hif : index_file embed uuid upsertOk f st = (⟨f.name, 0, 0, "empty"⟩, st) := by
          rw [index_file, hp]
        have hne : (index_file embed uuid upsertOk f st).1.status ≠ "ok" := by
          rw [hif]
          show ("empty" : String) ≠ "ok"
          decide
        rw [syncAdds_cons_err embed uuid upsertOk disk hd rest st f hf hne]
        refine ⟨List.mem_cons_self .., fun hadded => ?_⟩
        have : hd ∈ rest := syncAdds_added_subset embed uuid upsertOk disk rest _ hd hadded
        exact (List.nodup_cons.mp hnd).1 this
      · have hmem2 : name ∈ rest := by
          rcases List.mem_cons.mp hmem with h | h
          · exact absurd h.symm hhd
          · exact h
        have hnd2 : rest.Nodup := (List.nodup_cons.mp hnd).2
        cases hfhd : diskFileFor disk hd with
        | none =>
            rw [syncAdds_cons_none embed uuid upsertOk disk hd rest st hfhd]
            exact ih st name f hnd2 hmem2 hf hp
        | some fhd =>
            by_cases hok : (index_file embed uuid upsertOk fhd st).1.status = "ok"
            · rw [syncAdds_cons_ok embed uuid upsertOk disk hd rest st fhd hfhd hok]
              have hres := ih (index_file embed uuid upsertOk fhd st).2 name f hnd2 hmem2 hf hp
              refine ⟨hres.1, fun h => ?_⟩
              rcases List.mem_cons.mp h with h | h
              · exact hhd h.symm
              · exact hres.2 h
            · rw [syncAdds_cons_err embed uuid upsertOk disk hd rest st fhd hfhd hok]
              have hres := ih (index_file embed uuid upsertOk fhd st).2 name f hnd2 hmem2 hf hp
              exact ⟨List.mem_cons_of_mem _ hres.1, hres.2⟩

/-! ## C9: sync keys the disk set by basename -/

/-- C9: when two files on disk share a basename, `sync_folder` keys them
as one source: `total_on_disk` counts distinct basenames (strictly fewer
than files), and each basename is processed at most once per run —
`added ++ errors` has no duplicates. -/
theorem C9_sync_by_basename (embed : List String → Option (List (List ℚ)))
    (uuid : ℕ → String) (upsertOk : List Chunk → Bool) (queryOk : Bool)
    (disk : List DiskFile) (st : StoreState)
    (i j : ℕ) (fi fj : DiskFile) (hij : i < j)
    (hi : disk[i]? = some fi) (hj : disk[j]? = some fj)
    (hname : fi.name = fj.name) :
    (sync_folder embed uuid upsertOk queryOk disk st).1.total_on_disk
        = ((disk.map (·.name)).dedup).length
    ∧ (sync_folder embed uuid upsertOk queryOk disk st).1.total_on_disk < disk.length
    ∧ ((sync_folder embed uuid upsertOk queryOk disk st).1.added
        ++ (sync_folder embed uuid upsertOk queryOk disk st).1.errors).Nodup := by
  have htotal : (sync_folder embed uuid upsertOk queryOk disk st).1.total_on_disk
      = ((disk.map (·.name)).dedup).length := rfl
  refine ⟨htotal, ?_, ?_⟩
  · rw [htotal]
    have hni : (disk.map (·.name))[i]? = some fj.name := by
      rw [List.getElem?_map, hi, Option.map_some']
      rw [hname]
    have hnj : (disk.map (·.name))[j]? = some fj.name := by
      rw [List.getElem?_map, hj, Option.map_some']
    have hnotnodup : ¬ (disk.map (·.name)).Nodup :=
      not_nodup_of_getElem?_eq hij hni hnj
    have := dedup_length_lt_of_not_nodup hnotnodup
    simpa using this
  · have htoAdd : (nameSort (listDiff ((disk.map (·.name)).dedup)
        (indexedSources queryOk st))).Nodup :=
      nodup_nameSort _ (nodup_listDiff_dedup disk (indexedSources queryOk st))
    have hall : ∀ n ∈ nameSort (listDiff ((disk.map (·.name)).dedup)
        (indexedSources queryOk st)), (diskFileFor disk n).isSome := by
      intro n hn
      have := (mem_listDiff _ _ n).mp ((mem_nameSort _ n).mp hn)
      exact diskFileFor_isSome disk n this.1
    have hperm := syncAdds_perm embed uuid upsertOk disk
      (nameSort (listDiff ((disk.map (·.name)).dedup) (indexedSources queryOk st))) st hall
    exact hperm.nodup_iff.mpr htoAdd

/-- C9 witness: two same-named files in different places. -/
theorem C9_witness :
    ((0 : ℕ) < 1)
    ∧ (([⟨"x.pdf", .noContent⟩, ⟨"x.pdf", .raises⟩] : List DiskFile)[0]?
        = some ⟨"x.pdf", .noContent⟩)
    ∧ ((sync_folder (fun _ => none) (fun _ => "u") (fun _ => true) true
          [⟨"x.pdf", .noContent⟩, ⟨"x.pdf", .raises⟩] ⟨[], []⟩).1.total_on_disk
        = ((([⟨"x.pdf", .noContent⟩, ⟨"x.pdf", .raises⟩] : List DiskFile).map
            (·.name)).dedup).length
    ∧ (sync_folder (fun _ => none) (fun _ => "u") (fun _ => true) true
          [⟨"x.pdf", .noContent⟩, ⟨"x.pdf", .raises⟩] ⟨[], []⟩).1.total_on_disk
        < ([⟨"x.pdf", .noContent⟩, ⟨"x.pdf", .raises⟩] : List DiskFile).length
    ∧ ((sync_folder (fun _ => none) (fun _ => "u") (fun _ => true) true
          [⟨"x.pdf", .noContent⟩, ⟨"x.pdf", .raises⟩] ⟨[], []⟩).1.added
        ++ (sync_folder (fun _ => none) (fun _ => "u") (fun _ => true) true
          [⟨"x.pdf", .noContent⟩, ⟨"x.pdf", .raises⟩] ⟨[], []⟩).1.errors).Nodup) :=
  ⟨by decide, by decide,
   C9_sync_by_basename (fun _ => none) (fun _ => "u") (fun _ => true) true
     [⟨"x.pdf", .noContent⟩, ⟨"x.pdf", .raises⟩] ⟨[], []⟩ 0 1
     ⟨"x.pdf", .noContent⟩ ⟨"x.pdf", .raises⟩
     (by decide) (by decide) (by decide) (by decide)⟩

/-! ## C10: empty-extraction files -/

/-- C10 (amended): a supported file whose loading extracts no content
makes `index_file` return status `"empty"` with zero counts and an
unchanged store; and on any sync run in which that file is the one the
disk dict selects for its basename and the name is not already among the
indexed sources, `sync_folder` records the name in `errors` and never in
`added`.  (If the name is already indexed — e.g. stale rows from an older
version of the file — the diff skips it entirely; see the
counterexample.) -/
theorem C10_empty_file_reported (embed : List String → Option (List (List ℚ)))
    (uuid : ℕ → String) (upsertOk : List Chunk → Bool) (queryOk : Bool)
    (disk : List DiskFile) (st : StoreState)
    (name : String) (f : DiskFile)
    (hf : diskFileFor disk name = some f) (hp : f.pipeline = .noContent)
    (hidx : name ∉ indexedSources queryOk st) :
    index_file embed uuid upsertOk f st = (⟨f.name, 0, 0, "empty"⟩, st)
    ∧ name ∈ (sync_folder embed uuid upsertOk queryOk disk st).1.errors
    ∧ name ∉ (sync_folder embed uuid upsertOk queryOk disk st).1.added := by
  have hif : index_file embed uuid upsertOk f st = (⟨f.name, 0, 0, "empty"⟩, st) := by
    rw [index_file, hp]
  have hdisk : name ∈ (disk.map (·.name)).dedup :=
    mem_diskNames_of_diskFileFor disk name f hf
  have htoAdd : name ∈ nameSort (listDiff ((disk.map (·.name)).dedup)
      (indexedSources queryOk st)) :=
    (mem_nameSort _ name).mpr ((mem_listDiff _ _ name).mpr ⟨hdisk, hidx⟩)
  have hnodup : (nameSort (listDiff ((disk.map (·.name)).dedup)
      (indexedSources queryOk st))).Nodup :=
    nodup_nameSort _ (nodup_listDiff_dedup disk (indexedSources queryOk st))
  have hres := syncAdds_errors_of_empty embed uuid upsertOk disk
    (nameSort (listDiff ((disk.map (·.name)).dedup) (indexedSources queryOk st))) st
    name f hnodup htoAdd hf hp
  exact ⟨hif, hres.1, hres.2⟩

/-- C10 witness: a single empty-loading file over an empty store. -/
theorem C10_witness :
    (diskFileFor [⟨"x.pdf", .noContent⟩] "x.pdf" = some ⟨"x.pdf", .noContent⟩)
    ∧ ("x.pdf" ∉ indexedSources true ⟨[], []⟩)
    ∧ (index_file (fun _ => none) (fun _ => "u") (fun _ => true) ⟨"x.pdf", .noContent⟩ ⟨[], []⟩
          = (⟨"x.pdf", 0, 0, "empty"⟩, ⟨[], []⟩)
    ∧ "x.pdf" ∈ (sync_folder (fun _ => none) (fun _ => "u") (fun _ => true) true
          [⟨"x.pdf", .noContent⟩] ⟨[], []⟩).1.errors
    ∧ "x.pdf" ∉ (sync_folder (fun _ => none) (fun _ => "u") (fun _ => true) true
          [⟨"x.pdf", .noContent⟩] ⟨[], []⟩).1.added) :=
  ⟨by decide, by decide,
   C10_empty_file_reported (fun _ => none) (fun _ => "u") (fun _ => true) true
     [⟨"x.pdf", .noContent⟩] ⟨[], []⟩ "x.pdf" ⟨"x.pdf", .noContent⟩
     (by decide) (by decide) (by decide)⟩

/-- C10 counterexample: the claim as stated fails when the store already
holds rows under the file's name (stale content indexed earlier): the
file is present on disk and loads empty, yet the sync run records nothing
in `errors` — the diff skips the already-indexed name. -/
theorem C10_counterexample :
    (sync_folder (fun _ => none) (fun _ => "u") (fun _ => true) true [⟨"x.pdf", .noContent⟩]
        ⟨[⟨"id1", [], "t", "x.pdf", 1, false, "id1"⟩], []⟩).1.errors = []
    ∧ (sync_folder (fun _ => none) (fun _ => "u") (fun _ => true) true [⟨"x.pdf", .noContent⟩]
        ⟨[⟨"id1", [], "t", "x.pdf", 1, false, "id1"⟩], []⟩).1.added = []
    ∧ (⟨"x.pdf", PipelineOutcome.noContent⟩ : DiskFile).pipeline
        = PipelineOutcome.noContent := by
  refine ⟨by decide, by decide, rfl⟩

/-! ## C3: convergent sync -/

/-- Batch rows always end up in the upserted collection. -/
theorem mem_upsertRows_of_rows (col rows : List Row) (r : Row) (h : r ∈ rows) :
    r ∈ upsertRows col rows :=
  List.mem_append_right _ h

/-- Rows of the upserted collection come from the old collection or the
batch. -/
theorem mem_upsertRows_elim (col rows : List Row) (r : Row)
    (h : r ∈ upsertRows col rows) : r ∈ col ∨ r ∈ rows := by
  unfold upsertRows at h
  rcases List.mem_append.mp h with h | h
  · exact Or.inl (List.mem_filter.mp h).1
  · exact Or.inr h

/-- A stored row whose id collides with no batch id survives the upsert. -/
theorem mem_upsertRows_of_col (col rows : List Row) (r : Row) (h : r ∈ col)
    (hid : ∀ nr ∈ rows, nr.id ≠ r.id) : r ∈ upsertRows col rows := by
  unfold upsertRows
  apply List.mem_append_left
  apply List.mem_filter.mpr
  refine ⟨h, ?_⟩
  simp only [Bool.not_eq_true', Bool.not_eq_false]
  exact List.any_eq_false.mpr (fun nr hnr => by simpa using hid nr hnr)

/-- Every built row comes from some chunk of the batch. -/
theorem mem_buildRows_elim (uuid : ℕ → String) (chunks : List Chunk)
    (vectors : List (List ℚ)) (row : Row)
    (h : row ∈ buildRows uuid chunks vectors) :
    ∃ k c v, c ∈ chunks ∧ row = rowOfChunk uuid k c v := by
  unfold buildRows at h
  rcases List.mem_map.mp h with ⟨p, hp, hrow⟩
  refine ⟨p.1, p.2.1, p.2.2, ?_, hrow.symm⟩
  rw [List.enum_eq_zip_range] at hp
  exact (List.of_mem_zip (List.of_mem_zip hp).2).1

/-- The built batch is as long as the shorter of chunks and vectors. -/
theorem buildRows_length (uuid : ℕ → String) (chunks : List Chunk)
    (vectors : List (List ℚ)) :
    (buildRows uuid chunks vectors).length = min chunks.length vectors.length := by
  unfold buildRows
  simp [List.enum_length, List.length_zip]

/-- Truncation is the identity on short-enough strings. -/
theorem strTake_of_le (s : String) (n : ℕ) (h : s.data.length ≤ n) :
    strTake s n = s := by
  unfold strTake
  rw [List.take_of_length_le h]

/-- The id and source fields of a row built from a chunk with a non-empty
chunk id. -/
theorem rowOfChunk_fields (uuid : ℕ → String) (k : ℕ) (c : Chunk)
    (v : List ℚ) (cid : String) (hc : c.chunk_id = some cid) (hne : cid ≠ "") :
    (rowOfChunk uuid k c v).id = strTake cid 256
    ∧ (rowOfChunk uuid k c v).source = strTake c.source 512 := by
  unfold rowOfChunk
  rw [hc]
  simp [hne]

/-- `index_file` on a cleanly ingesting file: it reports `"ok"` and its
general collection becomes the old one upserted with a non-empty batch of
rows, all carrying the file's basename as source and an id `tag` tracks
back to that basename. -/
theorem index_file_clean (embed : List String → Option (List (List ℚ)))
    (uuid : ℕ → String) (upsertOk : List Chunk → Bool) (tag : String → String) (f : DiskFile)
    (st : StoreState) (hclean : cleanFile embed upsertOk tag f) :
    (index_file embed uuid upsertOk f st).1.status = "ok"
    ∧ ∃ rows : List Row, rows ≠ []
        ∧ (∀ row ∈ rows, row.source = f.name ∧ tag row.id = f.name)
        ∧ (index_file embed uuid upsertOk f st).2.general = upsertRows st.general rows := by
  rcases hclean with ⟨hname, hlen, g, d, hpipe, hgne, hup, ⟨vs, hemb, hvslen⟩, hchunks⟩
  have hif : index_file embed uuid upsertOk f st
      = (⟨f.name, (indexChunks embed uuid (upsertOk g) g st.general).1,
            (indexChunks embed uuid (upsertOk d) d st.defs).1, "ok"⟩,
         ⟨(indexChunks embed uuid (upsertOk g) g st.general).2,
          (indexChunks embed uuid (upsertOk d) d st.defs).2⟩) := by
    rw [index_file, hpipe]
  have hg : indexChunks embed uuid (upsertOk g) g st.general
      = ((buildRows uuid g vs).length, upsertRows st.general (buildRows uuid g vs)) := by
    rw [hup]
    exact indexChunks_success embed uuid g st.general vs hgne hemb
  refine ⟨by rw [hif], buildRows uuid g vs, ?_, ?_, ?_⟩
  · intro hnil
    have hl := congrArg List.length hnil
    rw [buildRows_length, hvslen] at hl
    simp at hl
    exact hgne hl
  · intro row hrow
    rcases mem_buildRows_elim uuid g vs row hrow with ⟨k, c, v, hc, hroweq⟩
    rcases hchunks c hc with ⟨hcsrc, hcsrclen, cid, hcid, hcidne, hctag⟩
    rcases rowOfChunk_fields uuid k c v cid hcid hcidne with ⟨hid, hsrc⟩
    constructor
    · rw [hroweq, hsrc, hcsrc]
      exact strTake_of_le f.name 512 hlen
    · rw [hroweq, hid]
      exact hctag
  · rw [hif]
    show (indexChunks embed uuid (upsertOk g) g st.general).2 = _
    rw [hg]

/-- The master invariant of the add loop: over a duplicate-free worklist
of cleanly ingesting files whose names are not yet stored, `syncAdds`
(1) keeps every stored row with a non-empty source, (2) ends with every
worklist name stored, (3) adds rows only under worklist names, and
(4) preserves the id-tagging invariant. -/
theorem syncAdds_clean (embed : List String → Option (List (List ℚ)))
    (uuid : ℕ → String) (upsertOk : List Chunk → Bool) (tag : String → String) (disk : List DiskFile) :
    ∀ (names : List String) (st : StoreState),
      names.Nodup →
      (∀ n ∈ names, ∃ f, diskFileFor disk n = some f ∧ cleanFile embed upsertOk tag f) →
      taggedStore tag st →
      (∀ n ∈ names, ∀ r ∈ st.general, r.source ≠ n) →
      (∀ r ∈ st.general, r.source ≠ "" →
          r ∈ (syncAdds embed uuid upsertOk disk names st).2.2.general)
      ∧ (∀ n ∈ names, ∃ r ∈ (syncAdds embed uuid upsertOk disk names st).2.2.general,
          r.source = n)
      ∧ (∀ r ∈ (syncAdds embed uuid upsertOk disk names st).2.2.general,
          r ∈ st.general ∨ r.source ∈ names)
      ∧ taggedStore tag (syncAdds embed uuid upsertOk disk names st).2.2 := by
  intro names
  induction names with
  | nil =>
      intro st _ _ htag _
      rw [syncAdds_nil]
      exact ⟨fun r hr _ => hr, fun n hn => absurd hn (List.not_mem_nil n),
             fun r hr => Or.inl hr, htag⟩
  | cons name rest ih =>
      intro st hnd hgood htag hdisj
      rcases hgood name (List.mem_cons_self ..) with ⟨f, hf, hclean⟩
      have hfname : f.name = name := diskFileFor_name disk name f hf
      rcases index_file_clean embed uuid upsertOk tag f st hclean with
        ⟨hst, rows, hrne, hrows, hgen⟩
      rw [syncAdds_cons_ok embed uuid upsertOk disk name rest st f hf hst]
      have htag1 : taggedStore tag (index_file embed uuid upsertOk f st).2 := by
        intro r hr hsrc
        rw [hgen] at hr
        rcases mem_upsertRows_elim _ _ r hr with h | h
        · exact htag r h hsrc
        · rcases hrows r h with ⟨hsrc2, htagid⟩
          rw [htagid, hsrc2]
      have hpres1 : ∀ r ∈ st.general, r.source ≠ "" →
          r ∈ (index_file embed uuid upsertOk f st).2.general := by
        intro r hr hsrc
        rw [hgen]
        apply mem_upsertRows_of_col _ _ r hr
        intro nr hnr heq
        rcases hrows nr hnr with ⟨hnrsrc, hnrtag⟩
        have h1 : tag r.id = r.source := htag r hr hsrc
        have h2 : r.source = name := by rw [← h1, ← heq, hnrtag, hfname]
        exact hdisj name (List.mem_cons_self ..) r hr h2
      have hdisj1 : ∀ n ∈ rest, ∀ r ∈ (index_file embed uuid upsertOk f st).2.general,
          r.source ≠ n := by
        intro n hn r hr
        rw [hgen] at hr
        rcases mem_upsertRows_elim _ _ r hr with h | h
        · exact hdisj n (List.mem_cons_of_mem _ hn) r h
        · rcases hrows r h with ⟨hsrc2, _⟩
          rw [hsrc2, hfname]
          intro hcontra
          exact (List.nodup_cons.mp hnd).1 (hcontra ▸ hn)
      have hgood1 : ∀ n ∈ rest,
          ∃ f2, diskFileFor disk n = some f2 ∧ cleanFile embed upsertOk tag f2 :=
        fun n hn => hgood n (List.mem_cons_of_mem _ hn)
      have hres := ih (index_file embed uuid upsertOk f st).2 (List.nodup_cons.mp hnd).2
        hgood1 htag1 hdisj1
      refine ⟨?_, ?_, ?_, hres.2.2.2⟩
      · intro r hr hsrc
        exact hres.1 r (hpres1 r hr hsrc) hsrc
      · intro n hn
        rcases List.mem_cons.mp hn with h | h
        · subst h
          rcases List.exists_mem_of_ne_nil rows hrne with ⟨row, hrow⟩
          rcases hrows row hrow with ⟨hrsrc, _⟩
          have hrow1 : row ∈ (index_file embed uuid upsertOk f st).2.general := by
            rw [hgen]
            exact mem_upsertRows_of_rows _ _ _ hrow
          have hsrcne : row.source ≠ "" := by
            rw [hrsrc, hfname]
            rw [← hfname]
            exact hclean.1
          exact ⟨row, hres.1 row hrow1 hsrcne, by rw [hrsrc, hfname]⟩
        · exact hres.2.1 n h
      · intro r hr
        rcases hres.2.2.1 r hr with h | h
        · rw [hgen] at h
          rcases mem_upsertRows_elim _ _ r h with h2 | h2
          · exact Or.inl h2
          · rcases hrows r h2 with ⟨hsrc2, _⟩
            refine Or.inr ?_
            rw [hsrc2, hfname]
            exact List.mem_cons_self ..
        · exact Or.inr (List.mem_cons_of_mem _ h)

/-- The delete loop removes exactly the rows of the listed sources from
the general collection, provided the listed names are backslash-free (so
their filters parse). -/
theorem syncDeletes_general :
    ∀ (names : List String) (st : StoreState),
      (∀ n ∈ names, '\\' ∉ n.data) →
      ∀ r : Row, r ∈ (syncDeletes names st).2.general
        ↔ (r ∈ st.general ∧ r.source ∉ names) := by
  intro names
  induction names with
  | nil =>
      intro st _ r
      show r ∈ st.general ↔ _
      simp
  | cons name rest ih =>
      intro st hnb r
      rw [syncDeletes_cons]
      show r ∈ (syncDeletes rest (delete_file_vectors name st)).2.general ↔ _
      rw [ih (delete_file_vectors name st)
        (fun n hn => hnb n (List.mem_cons_of_mem _ hn)) r]
      have hdel : (delete_file_vectors name st).general
          = st.general.filter (fun r => r.source ≠ name) := by
        simp only [delete_file_vectors]
        rw [deleteByFilter_exact name st.general (hnb name (List.mem_cons_self ..))]
      rw [hdel]
      constructor
      · rintro ⟨hr, hnr⟩
        rcases List.mem_filter.mp hr with ⟨hrg, hne⟩
        have hsne : r.source ≠ name := by simpa using hne
        refine ⟨hrg, fun hmem => ?_⟩
        rcases List.mem_cons.mp hmem with h | h
        · exact hsne h
        · exact hnr h
      · rintro ⟨hrg, hnr⟩
        have h1 : r.source ≠ name := fun h => hnr (h ▸ List.mem_cons_self ..)
        have h2 : r.source ∉ rest := fun h => hnr (List.mem_cons_of_mem _ h)
        exact ⟨List.mem_filter.mpr ⟨hrg, by simpa using h1⟩, h2⟩

/-- C3 (amended): running sync twice with no filesystem change in between
yields an empty `added`/`deleted`/`errors` report on the second run,
provided: the store's source queries succeed on both runs (the `true`
query flags); the general collection stays within the `limit=16384` scan
cap both before and after the first run, so the capped source scan is
exact; every on-disk file ingests cleanly (loads with content, chunks
into at least one tagged general chunk, embeds, and its general upsert
succeeds); and the stored sources are deletable (backslash-free).
Without these provisos the code retries the failing or unregistered
files on every run (see the counterexample). -/
theorem C3_sync_twice_converges (embed : List String → Option (List (List ℚ)))
    (uuid : ℕ → String) (upsertOk : List Chunk → Bool) (tag : String → String) (disk : List DiskFile)
    (st : StoreState)
    (hcap1 : st.general.length ≤ QUERY_LIMIT)
    (hcap2 : (sync_folder embed uuid upsertOk true disk st).2.general.length ≤ QUERY_LIMIT)
    (htag : taggedStore tag st)
    (hnb : ∀ r ∈ st.general, '\\' ∉ r.source.data)
    (hclean : ∀ n ∈ (disk.map (·.name)).dedup,
        ∃ f, diskFileFor disk n = some f ∧ cleanFile embed upsertOk tag f) :
    (sync_folder embed uuid upsertOk true disk (sync_folder embed uuid upsertOk true disk st).2).1.added = []
    ∧ (sync_folder embed uuid upsertOk true disk (sync_folder embed uuid upsertOk true disk st).2).1.deleted = []
    ∧ (sync_folder embed uuid upsertOk true disk (sync_folder embed uuid upsertOk true disk st).2).1.errors = [] := by
  have hnamene : ∀ n ∈ (disk.map (·.name)).dedup, n ≠ "" := by
    intro n hn
    rcases hclean n hn with ⟨f, hf, hcf⟩
    rw [← diskFileFor_name disk n f hf]
    exact hcf.1
  -- notation for the first run
  have htoAddNodup : (nameSort (listDiff ((disk.map (·.name)).dedup)
      (indexedSources true st))).Nodup :=
    nodup_nameSort _ (nodup_listDiff_dedup disk (indexedSources true st))
  have htoAddMem : ∀ n ∈ nameSort (listDiff ((disk.map (·.name)).dedup)
      (indexedSources true st)),
      n ∈ (disk.map (·.name)).dedup ∧ n ∉ indexedSources true st := by
    intro n hn
    exact (mem_listDiff _ _ n).mp ((mem_nameSort _ n).mp hn)
  have hgood : ∀ n ∈ nameSort (listDiff ((disk.map (·.name)).dedup)
      (indexedSources true st)),
      ∃ f, diskFileFor disk n = some f ∧ cleanFile embed upsertOk tag f :=
    fun n hn => hclean n (htoAddMem n hn).1
  have hdisj : ∀ n ∈ nameSort (listDiff ((disk.map (·.name)).dedup)
      (indexedSources true st)), ∀ r ∈ st.general, r.source ≠ n := by
    intro n hn r hr hcontra
    have hne : n ≠ "" := hnamene n (htoAddMem n hn).1
    have : n ∈ indexedSources true st :=
      mem_indexedSources_intro st n hcap1 ⟨r, hr, hcontra⟩ hne
    exact (htoAddMem n hn).2 this
  have hadds := syncAdds_clean embed uuid upsertOk tag disk
    (nameSort (listDiff ((disk.map (·.name)).dedup) (indexedSources true st))) st
    htoAddNodup hgood htag hdisj
  -- the delete list of the first run
  have htoDelMem : ∀ n ∈ nameSort (listDiff (indexedSources true st)
      ((disk.map (·.name)).dedup)),
      n ∈ indexedSources true st ∧ n ∉ (disk.map (·.name)).dedup := by
    intro n hn
    exact (mem_listDiff _ _ n).mp ((mem_nameSort _ n).mp hn)
  have htoDelNb : ∀ n ∈ nameSort (listDiff (indexedSources true st)
      ((disk.map (·.name)).dedup)), '\\' ∉ n.data := by
    intro n hn
    rcases (mem_indexedSources_elim st n (htoDelMem n hn).1).1 with ⟨r, hr, hsrc⟩
    rw [← hsrc]
    exact hnb r hr
  have hdels := syncDeletes_general
    (nameSort (listDiff (indexedSources true st) ((disk.map (·.name)).dedup)))
    (syncAdds embed uuid upsertOk disk
      (nameSort (listDiff ((disk.map (·.name)).dedup) (indexedSources true st))) st).2.2
    htoDelNb
  -- the store after the first run
  have hst1 : (sync_folder embed uuid upsertOk true disk st).2
      = (syncDeletes
          (nameSort (listDiff (indexedSources true st) ((disk.map (·.name)).dedup)))
          (syncAdds embed uuid upsertOk disk
            (nameSort (listDiff ((disk.map (·.name)).dedup) (indexedSources true st)))
            st).2.2).2 := rfl
  -- (A): every on-disk basename is indexed after the first run
  have hA : ∀ n ∈ (disk.map (·.name)).dedup,
      n ∈ indexedSources true (sync_folder embed uuid upsertOk true disk st).2 := by
    intro n hn
    have hne : n ≠ "" := hnamene n hn
    by_cases hidx : n ∈ indexedSources true st
    · rcases (mem_indexedSources_elim st n hidx).1 with ⟨r, hr, hsrc⟩
      have hr1 : r ∈ (syncAdds embed uuid upsertOk disk
          (nameSort (listDiff ((disk.map (·.name)).dedup) (indexedSources true st)))
          st).2.2.general :=
        hadds.1 r hr (by rw [hsrc]; exact hne)
      have hnotdel : r.source ∉ nameSort (listDiff (indexedSources true st)
          ((disk.map (·.name)).dedup)) := by
        intro hmem
        exact (htoDelMem _ hmem).2 (hsrc ▸ hn)
      have hr2 := (hdels r).mpr ⟨hr1, hnotdel⟩
      rw [hst1]
      exact mem_indexedSources_intro _ n hcap2 ⟨r, hr2, hsrc⟩ hne
    · have hmem : n ∈ nameSort (listDiff ((disk.map (·.name)).dedup)
          (indexedSources true st)) :=
        (mem_nameSort _ n).mpr ((mem_listDiff _ _ n).mpr ⟨hn, hidx⟩)
      rcases hadds.2.1 n hmem with ⟨r, hr1, hsrc⟩
      have hnotdel : r.source ∉ nameSort (listDiff (indexedSources true st)
          ((disk.map (·.name)).dedup)) := by
        intro hmem2
        exact (htoDelMem _ hmem2).2 (hsrc ▸ hn)
      have hr2 := (hdels r).mpr ⟨hr1, hnotdel⟩
      rw [hst1]
      exact mem_indexedSources_intro _ n hcap2 ⟨r, hr2, hsrc⟩ hne
  -- (B): everything indexed after the first run is on disk
  have hB : ∀ n ∈ indexedSources true (sync_folder embed uuid upsertOk true disk st).2,
      n ∈ (disk.map (·.name)).dedup := by
    intro n hn
    rw [hst1] at hn
    rcases mem_indexedSources_elim _ n hn with ⟨⟨r, hr, hsrc⟩, hne⟩
    rcases (hdels r).mp hr with ⟨hrA, hnotdel⟩
    rcases hadds.2.2.1 r hrA with h | h
    · by_contra hnd
      apply hnotdel
      apply (mem_nameSort _ _).mpr
      apply (mem_listDiff _ _ _).mpr
      have hsne : r.source ≠ "" := by rw [hsrc]; exact hne
      refine ⟨mem_indexedSources_intro st r.source hcap1 ⟨r, h, rfl⟩ hsne, ?_⟩
      rw [hsrc]
      exact hnd
    · rw [← hsrc]
      exact (htoAddMem _ h).1
  -- the second run has empty worklists
  have hAdd2 : listDiff ((disk.map (·.name)).dedup)
      (indexedSources true (sync_folder embed uuid upsertOk true disk st).2) = [] := by
    unfold listDiff
    apply List.filter_eq_nil_iff.mpr
    intro n hn
    simp [List.elem_iff, hA n hn]
  have hDel2 : listDiff (indexedSources true (sync_folder embed uuid upsertOk true disk st).2)
      ((disk.map (·.name)).dedup) = [] := by
    unfold listDiff
    apply List.filter_eq_nil_iff.mpr
    intro n hn
    simp [List.elem_iff, hB n hn]
  have hrepAdded : (sync_folder embed uuid upsertOk true disk (sync_folder embed uuid upsertOk true disk st).2).1.added
      = (syncAdds embed uuid upsertOk disk
          (nameSort (listDiff ((disk.map (·.name)).dedup)
            (indexedSources true (sync_folder embed uuid upsertOk true disk st).2)))
          (sync_folder embed uuid upsertOk true disk st).2).1 := rfl
  have hrepErrors : (sync_folder embed uuid upsertOk true disk (sync_folder embed uuid upsertOk true disk st).2).1.errors
      = (syncAdds embed uuid upsertOk disk
          (nameSort (listDiff ((disk.map (·.name)).dedup)
            (indexedSources true (sync_folder embed uuid upsertOk true disk st).2)))
          (sync_folder embed uuid upsertOk true disk st).2).2.1 := rfl
  have hrepDeleted : (sync_folder embed uuid upsertOk true disk (sync_folder embed uuid upsertOk true disk st).2).1.deleted
      = (syncDeletes
          (nameSort (listDiff (indexedSources true (sync_folder embed uuid upsertOk true disk st).2)
            ((disk.map (·.name)).dedup)))
          (syncAdds embed uuid upsertOk disk
            (nameSort (listDiff ((disk.map (·.name)).dedup)
              (indexedSources true (sync_folder embed uuid upsertOk true disk st).2)))
            (sync_folder embed uuid upsertOk true disk st).2).2.2).1 := rfl
  refine ⟨?_, ?_, ?_⟩
  · rw [hrepAdded, hAdd2]
    rfl
  · rw [hrepDeleted, hDel2]
    rfl
  · rw [hrepErrors, hAdd2]
    rfl

/-- C3 counterexample: a file whose loading extracts no content is
re-processed and re-reported in `errors` on every sync run, so the second
of two back-to-back runs over an unchanged filesystem does not produce an
empty report — the claim as stated fails on the code. -/
theorem C3_counterexample :
    (sync_folder (fun _ => none) (fun _ => "u") (fun _ => true) true [⟨"x.pdf", .noContent⟩]
        (sync_folder (fun _ => none) (fun _ => "u") (fun _ => true) true [⟨"x.pdf", .noContent⟩]
          ⟨[], []⟩).2).1.errors = ["x.pdf"]
    ∧ (sync_folder (fun _ => none) (fun _ => "u") (fun _ => true) true [⟨"x.pdf", .noContent⟩]
        (sync_folder (fun _ => none) (fun _ => "u") (fun _ => true) true [⟨"x.pdf", .noContent⟩]
          ⟨[], []⟩).2).1.errors ≠ [] := by
  refine ⟨by decide, by decide⟩

/-- C3 witness: a one-file disk that ingests cleanly into an empty store;
the second sync run reports nothing. -/
theorem C3_witness :
    ((⟨[], []⟩ : StoreState).general.length ≤ QUERY_LIMIT)
    ∧ ((sync_folder (fun ts => some (ts.map (fun _ => []))) (fun _ => "u") (fun _ => true) true
          [⟨"a.pdf", .chunks [⟨some "c1", "t", "a.pdf", 1, false⟩] []⟩]
          ⟨[], []⟩).2.general.length ≤ QUERY_LIMIT)
    ∧ taggedStore (fun _ => "a.pdf") ⟨[], []⟩
    ∧ (∀ r ∈ (⟨[], []⟩ : StoreState).general, '\\' ∉ r.source.data)
    ∧ (∀ n ∈ (([⟨"a.pdf",
          .chunks [⟨some "c1", "t", "a.pdf", 1, false⟩] []⟩] : List DiskFile).map
            (·.name)).dedup,
        ∃ f, diskFileFor [⟨"a.pdf",
            .chunks [⟨some "c1", "t", "a.pdf", 1, false⟩] []⟩] n = some f
          ∧ cleanFile (fun ts => some (ts.map (fun _ => []))) (fun _ => true) (fun _ => "a.pdf") f)
    ∧ ((sync_folder (fun ts => some (ts.map (fun _ => []))) (fun _ => "u") (fun _ => true) true
          [⟨"a.pdf", .chunks [⟨some "c1", "t", "a.pdf", 1, false⟩] []⟩]
          (sync_folder (fun ts => some (ts.map (fun _ => []))) (fun _ => "u") (fun _ => true) true
            [⟨"a.pdf", .chunks [⟨some "c1", "t", "a.pdf", 1, false⟩] []⟩]
            ⟨[], []⟩).2).1.added = []
    ∧ (sync_folder (fun ts => some (ts.map (fun _ => []))) (fun _ => "u") (fun _ => true) true
          [⟨"a.pdf", .chunks [⟨some "c1", "t", "a.pdf", 1, false⟩] []⟩]
          (sync_folder (fun ts => some (ts.map (fun _ => []))) (fun _ => "u") (fun _ => true) true
            [⟨"a.pdf", .chunks [⟨some "c1", "t", "a.pdf", 1, false⟩] []⟩]
            ⟨[], []⟩).2).1.deleted = []
    ∧ (sync_folder (fun ts => some (ts.map (fun _ => []))) (fun _ => "u") (fun _ => true) true
          [⟨"a.pdf", .chunks [⟨some "c1", "t", "a.pdf", 1, false⟩] []⟩]
          (sync_folder (fun ts => some (ts.map (fun _ => []))) (fun _ => "u") (fun _ => true) true
            [⟨"a.pdf", .chunks [⟨some "c1", "t", "a.pdf", 1, false⟩] []⟩]
            ⟨[], []⟩).2).1.errors = []) :=
  have hcl : ∀ n ∈ (([⟨"a.pdf",
        .chunks [⟨some "c1", "t", "a.pdf", 1, false⟩] []⟩] : List DiskFile).map
          (·.name)).dedup,
      ∃ f, diskFileFor [⟨"a.pdf",
          .chunks [⟨some "c1", "t", "a.pdf", 1, false⟩] []⟩] n = some f
        ∧ cleanFile (fun ts => some (ts.map (fun _ => []))) (fun _ => true) (fun _ => "a.pdf") f := by
    intro n hn
    have hn2 : n = "a.pdf" := by simpa using hn
    subst hn2
    refine ⟨⟨"a.pdf", .chunks [⟨some "c1", "t", "a.pdf", 1, false⟩] []⟩, rfl,
      by decide, by decide,
      [⟨some "c1", "t", "a.pdf", 1, false⟩], [], rfl, by decide, rfl,
      ⟨[[]], rfl, rfl⟩, ?_⟩
    intro c hc
    have hc2 : c = ⟨some "c1", "t", "a.pdf", 1, false⟩ := by simpa using hc
    subst hc2
    exact ⟨rfl, by decide, "c1", rfl, by decide, rfl⟩
  ⟨by decide, by decide,
   fun r hr => absurd hr (List.not_mem_nil r),
   fun r hr => absurd hr (List.not_mem_nil r),
   hcl,
   C3_sync_twice_converges (fun ts => some (ts.map (fun _ => []))) (fun _ => "u") (fun _ => true)
     (fun _ => "a.pdf")
     [⟨"a.pdf", .chunks [⟨some "c1", "t", "a.pdf", 1, false⟩] []⟩] ⟨[], []⟩
     (by decide) (by decide)
     (fun r hr => absurd hr (List.not_mem_nil r))
     (fun r hr => absurd hr (List.not_mem_nil r))
     hcl⟩

end CiteWise
